import Mathlib

/-!
# Verification of the Process-Scheduler repository

Shallow embedding of `src/algorithms.py` and `src/utils.py`:
process descriptors, the eight scheduling policies and the metric
aggregator, together with proofs of the specification's claims.

Conventions of the embedding:
* Python integers become `Int`; the CFS virtual runtime (a Python float
  updated only by `vr + exec / weight`) is embedded as `ℚ`.
* Python dicts keyed by pid become functions `Int → Int` (or
  `Int → Option Int` where the code uses `dict.get` with a dynamic
  default), built by successive pointwise updates, later writes winning,
  exactly as dict construction does.
* `heapq` heaps keyed by tuples become plain lists together with an
  extract-minimum operation (`selectMinBy`); on the executions the
  theorems talk about the stored keys never tie (the pid is part of every
  key and pids are unique), so extract-minimum is exactly the heap's
  observable behaviour.
* Unbounded `while` loops become fuel-indexed recursions returning
  `Option`: `none` means the fuel ran out before the loop finished, and
  `some tl` means the Python loop terminates and returns `tl`.
-/

namespace Sched

/-- A process descriptor, mirroring the dicts consumed by
`src/algorithms.py`: `pid`, `arrival`, `burst`, and `priority`
(defaulting to 1, as `p.get("priority", 1)` does). -/
structure Proc where
  pid : Int
  arrival : Int
  burst : Int
  priority : Int := 1
deriving Repr, DecidableEq

/-- One execution slice `{"pid": …, "start": …, "finish": …}` of a
timeline. -/
structure Slice where
  pid : Int
  start : Int
  finish : Int
deriving Repr, DecidableEq

/-- Duration `finish - start` of a slice. -/
def sliceDur (s : Slice) : Int := s.finish - s.start

/-- Total duration of the slices of a given pid in a timeline:
`Σ (finish - start)` over the slices whose pid matches. -/
def sumDur (tl : List Slice) (x : Int) : Int :=
  ((tl.filter (fun s => s.pid = x)).map sliceDur).sum

/-- `sorted(processes, key=lambda x: x["arrival"])`: Python's `sorted` is
stable, so a stable sort (insertion sort) by arrival alone embeds it. -/
def sortByArrival (ps : List Proc) : List Proc :=
  ps.insertionSort (fun a b => a.arrival ≤ b.arrival)

/-- Pointwise update of a pid-keyed map, as one dict store does. -/
def updateMap (m : Int → Int) (k v : Int) : Int → Int :=
  fun x => if x = k then v else m x

/-- `{p["pid"]: p["burst"] for p in procs}` — later entries win, missing
pids read as 0 (the Python dict would raise instead; no run the theorems
speak about ever reads a missing pid). -/
def initRem (ps : List Proc) : Int → Int :=
  ps.foldl (fun m p => updateMap m p.pid p.burst) (fun _ => 0)

/-- The input-validity predicate of the specification's §6/§7: non-empty
list, unique positive pids, `arrival ≥ 0`, `burst ≥ 1`. -/
def ValidInput (ps : List Proc) : Prop :=
  ps ≠ [] ∧ (ps.map Proc.pid).Nodup ∧
    ∀ p ∈ ps, 0 < p.pid ∧ 0 ≤ p.arrival ∧ 1 ≤ p.burst

instance : DecidablePred ValidInput := fun ps => by
  unfold ValidInput; infer_instance

/-! ## `fcfs` (src/algorithms.py lines 17–29) -/

/-- The loop body of `fcfs`: walk the (already sorted) process list,
dispatching each in turn. -/
def fcfsGo : List Proc → Int → List Slice
  | [], _ => []
  | p :: rest, time =>
    let s := max time p.arrival
    ⟨p.pid, s, s + p.burst⟩ :: fcfsGo rest (s + p.burst)

/-- `fcfs(processes)` — First Come First Serve. -/
def fcfs (processes : List Proc) : List Slice :=
  fcfsGo (sortByArrival processes) 0

/-! ## `round_robin` (src/algorithms.py lines 57–97) -/

/-- One dispatch of `round_robin`'s main loop, given the popped process
`p`, the rest of the queue, and the pending arrivals: run
`exec = min(quantum, remaining)`, emit the slice, admit arrivals that
came during the slice, then re-enqueue `p` if work remains. -/
def rrDispatch (quantum : Int) (p : Proc) (qrest procs : List Proc)
    (rem : Int → Int) (time : Int) (acc : List Slice) :
    List Proc × List Proc × (Int → Int) × Int × List Slice :=
  let e := min quantum (rem p.pid)
  let fin := time + e
  let rem1 := updateMap rem p.pid (rem p.pid - e)
  let adm := procs.takeWhile (fun x => decide (x.arrival ≤ fin))
  let procs2 := procs.dropWhile (fun x => decide (x.arrival ≤ fin))
  (procs2,
   qrest ++ adm ++ (if 0 < rem1 p.pid then [p] else []),
   rem1, fin, acc ++ [⟨p.pid, time, fin⟩])

/-- The `while q or procs` loop of `round_robin`.  When the queue is
empty the clock jumps to the next arrival and every arrival `≤` the new
clock is admitted (the head of `procs` is always among them, so the
dispatch can take it directly). -/
def rrGo (quantum : Int) : ℕ → List Proc → List Proc → (Int → Int) → Int →
    List Slice → Option (List Slice)
  | 0, _, _, _, _, _ => none
  | fuel+1, procs, q, rem, time, acc =>
    match q, procs with
    | [], [] => some acc
    | [], pr :: prest =>
      let t1 := max time pr.arrival
      let st := rrDispatch quantum pr
        (prest.takeWhile (fun x => decide (x.arrival ≤ t1)))
        (prest.dropWhile (fun x => decide (x.arrival ≤ t1))) rem t1 acc
      rrGo quantum fuel st.1 st.2.1 st.2.2.1 st.2.2.2.1 st.2.2.2.2
    | p :: qrest, procs =>
      let st := rrDispatch quantum p qrest procs rem time acc
      rrGo quantum fuel st.1 st.2.1 st.2.2.1 st.2.2.2.1 st.2.2.2.2

/-- `round_robin(processes, quantum)`: sort by arrival, seed the clock to
`max(0, first arrival)`, admit the initial arrivals, and run the loop. -/
def round_robin (processes : List Proc) (quantum : Int) (fuel : ℕ) :
    Option (List Slice) :=
  let procs := sortByArrival processes
  match procs with
  | [] => rrGo quantum fuel [] [] (initRem procs) 0 []
  | pr :: prest =>
    let t0 := max 0 pr.arrival
    rrGo quantum fuel
      (prest.dropWhile (fun x => decide (x.arrival ≤ t0)))
      (pr :: prest.takeWhile (fun x => decide (x.arrival ≤ t0)))
      (initRem (pr :: prest)) t0 []

/-! ## `sjf` (src/algorithms.py lines 32–54) -/

/-- `ready.sort(key=lambda x: x["burst"])` — Python's stable sort by the
burst key alone. -/
def sortByBurst (l : List Proc) : List Proc :=
  l.insertionSort (fun a b => a.burst ≤ b.burst)

/-- The `while procs or ready` loop of `sjf`: admit arrivals, stably sort
the ready list by burst, pop its head and run it to completion; when
nothing is ready, jump the clock to `max(time+1, next arrival)`. -/
def sjfGo : ℕ → List Proc → List Proc → Int → List Slice →
    Option (List Slice)
  | 0, _, _, _, _ => none
  | fuel+1, procs, ready, time, acc =>
    if procs.isEmpty && ready.isEmpty then some acc
    else
      let ready1 := ready ++ procs.takeWhile (fun x => decide (x.arrival ≤ time))
      let procs1 := procs.dropWhile (fun x => decide (x.arrival ≤ time))
      match sortByBurst ready1 with
      | p :: rest =>
        let s := max time p.arrival
        sjfGo fuel procs1 rest (s + p.burst) (acc ++ [⟨p.pid, s, s + p.burst⟩])
      | [] =>
        match procs1 with
        | q :: _ => sjfGo fuel procs1 [] (max (time + 1) q.arrival) acc
        | [] => some acc

/-- `sjf(processes)` — Shortest Job First, non-preemptive. -/
def sjf (processes : List Proc) (fuel : ℕ) : Option (List Slice) :=
  sjfGo fuel (sortByArrival processes) [] 0 []

/-! ## `priority_scheduling` (src/algorithms.py lines 100–121) -/

/-- `ready.sort(key=lambda x: (x["priority"], x["arrival"]))` — stable
sort by the lexicographic `(priority, arrival)` key. -/
def sortByPrioArrival (l : List Proc) : List Proc :=
  l.insertionSort (fun a b =>
    a.priority < b.priority ∨ (a.priority = b.priority ∧ a.arrival ≤ b.arrival))

/-- The main loop of `priority_scheduling`, structurally identical to
`sjfGo` with the `(priority, arrival)` sort key. -/
def prioGo : ℕ → List Proc → List Proc → Int → List Slice →
    Option (List Slice)
  | 0, _, _, _, _ => none
  | fuel+1, procs, ready, time, acc =>
    if procs.isEmpty && ready.isEmpty then some acc
    else
      let ready1 := ready ++ procs.takeWhile (fun x => decide (x.arrival ≤ time))
      let procs1 := procs.dropWhile (fun x => decide (x.arrival ≤ time))
      match sortByPrioArrival ready1 with
      | p :: rest =>
        let s := max time p.arrival
        prioGo fuel procs1 rest (s + p.burst) (acc ++ [⟨p.pid, s, s + p.burst⟩])
      | [] =>
        match procs1 with
        | q :: _ => prioGo fuel procs1 [] (max (time + 1) q.arrival) acc
        | [] => some acc

/-- `priority_scheduling(processes)` — non-preemptive priority, smaller
number = higher priority. -/
def priority_scheduling (processes : List Proc) (fuel : ℕ) :
    Option (List Slice) :=
  prioGo fuel (sortByArrival processes) [] 0 []

/-! ## `priority_scheduling_with_aging` (src/algorithms.py lines 124–184) -/

/-- Extract the element with the least key from a non-empty collection,
returning it together with the remaining elements.  On key ties the
earlier element wins; every key used below embeds the pid, so on the
runs the theorems describe there are no ties and this is exactly what
`heapq.heappop` observes. -/
def selectMinBy {α κ : Type} [LinearOrder κ] (key : α → κ) :
    α → List α → α × List α
  | p, [] => (p, [])
  | p, q :: rest =>
    if key q < key p then
      ((selectMinBy key q rest).1, p :: (selectMinBy key q rest).2)
    else
      ((selectMinBy key p rest).1, q :: (selectMinBy key p rest).2)

/-- `effective_priority(p, now)` (lines 144–147):
`waited = now - waiting_since.get(pid, now)`,
`bonus = (waited // aging_interval) * aging_delta`,
result `max(1, priority - bonus)`.  Python `//` is floor division,
embedded by `Int.fdiv`. -/
def effective_priority (aging_interval aging_delta : Int)
    (ws : Int → Option Int) (p : Proc) (now : Int) : Int :=
  let waited := now - (match ws p.pid with | some t => t | none => now)
  let bonus := (Int.fdiv waited aging_interval) * aging_delta
  max 1 (p.priority - bonus)

/-- Store `time` into `waiting_since` for every process of `l`. -/
def setWaiting (l : List Proc) (time : Int) (ws : Int → Option Int) :
    Int → Option Int :=
  l.foldl (fun m x => fun y => if y = x.pid then some time else m y) ws

/-- The main loop of `priority_scheduling_with_aging`: admit arrivals
(recording `waiting_since`), re-key the whole ready set with aged
priorities, dispatch the minimum `(effective_priority, arrival, pid)`,
then reset `waiting_since` to the finish clock for everything still
waiting. -/
def agingGo (ai ad : Int) : ℕ → List Proc → List Proc →
    (Int → Option Int) → Int → List Slice → Option (List Slice)
  | 0, _, _, _, _, _ => none
  | fuel+1, procs, ready, ws, time, acc =>
    if procs.isEmpty && ready.isEmpty then some acc
    else
      let adm := procs.takeWhile (fun x => decide (x.arrival ≤ time))
      let procs1 := procs.dropWhile (fun x => decide (x.arrival ≤ time))
      let ws1 := setWaiting adm time ws
      match ready ++ adm with
      | [] =>
        match procs1 with
        | q :: _ => agingGo ai ad fuel procs1 [] ws1 (max (time + 1) q.arrival) acc
        | [] => some acc
      | r0 :: rrest =>
        let pr := selectMinBy
          (fun x => toLex (effective_priority ai ad ws1 x time,
            toLex (x.arrival, x.pid))) r0 rrest
        let p := pr.1
        let s := max time p.arrival
        let fin := s + p.burst
        agingGo ai ad fuel procs1 pr.2 (setWaiting pr.2 fin ws1) fin
          (acc ++ [⟨p.pid, s, fin⟩])

/-- `priority_scheduling_with_aging(processes, aging_interval,
aging_delta)`: clock seeded to the first arrival (0 when empty). -/
def priority_scheduling_with_aging (processes : List Proc) (ai ad : Int)
    (fuel : ℕ) : Option (List Slice) :=
  let procs := sortByArrival processes
  agingGo ai ad fuel procs [] (fun _ => none)
    (match procs with | [] => 0 | p :: _ => p.arrival) []

/-! ## `srtf` (src/algorithms.py lines 187–231) -/

/-- The mutable state of `srtf`'s unit-stepping loop. -/
structure SrtfState where
  procs : List Proc
  ready : List Proc
  rem : Int → Int
  time : Int
  completed : ℕ
  cur : Option Int
  lastT : Int
  acc : List Slice

/-- The `while completed < n` loop of `srtf`.  Heap keys are
`(remaining, pid)`; stored keys always equal the live `remaining` (only
the popped process's counter changes while it is out of the heap), so
the extract-minimum re-reads `rem`.  A slice boundary is recorded when
the running pid changes; one time unit is run per iteration. -/
def srtfGo (n : ℕ) : ℕ → SrtfState → Option (List Slice)
  | 0, _ => none
  | fuel+1, st =>
    if st.completed < n then
      let adm := st.procs.takeWhile (fun x => decide (x.arrival ≤ st.time))
      let procs1 := st.procs.dropWhile (fun x => decide (x.arrival ≤ st.time))
      match st.ready ++ adm with
      | [] => srtfGo n fuel { st with procs := procs1, ready := [], time := st.time + 1 }
      | r0 :: rrest =>
        let pr := selectMinBy (fun x => toLex (st.rem x.pid, x.pid)) r0 rrest
        let p := pr.1
        let lt1 := match st.cur with
          | none => st.time
          | some c => if c = p.pid then st.lastT else st.time
        let acc1 := match st.cur with
          | none => st.acc
          | some c =>
            if c = p.pid then st.acc
            else if st.lastT < st.time then st.acc ++ [⟨c, st.lastT, st.time⟩]
            else st.acc
        let rem1 := updateMap st.rem p.pid (st.rem p.pid - 1)
        if st.rem p.pid - 1 = 0 then
          srtfGo n fuel
            { procs := procs1, ready := pr.2, rem := rem1,
              time := st.time + 1, completed := st.completed + 1, cur := none,
              lastT := lt1, acc := acc1 ++ [⟨p.pid, lt1, st.time + 1⟩] }
        else
          srtfGo n fuel
            { procs := procs1, ready := pr.2 ++ [p], rem := rem1,
              time := st.time + 1, completed := st.completed, cur := some p.pid,
              lastT := lt1, acc := acc1 }
    else some st.acc

/-- `srtf(processes)` — Shortest Remaining Time First. -/
def srtf (processes : List Proc) (fuel : ℕ) : Option (List Slice) :=
  let procs := sortByArrival processes
  let t0 := match procs with | [] => 0 | p :: _ => p.arrival
  srtfGo procs.length fuel
    { procs := procs, ready := [], rem := initRem procs, time := t0,
      completed := 0, cur := none, lastT := t0, acc := [] }

/-! ## `cfs` (src/algorithms.py lines 234–273) -/

/-- The mutable state of `cfs`: pending arrivals, the ready set carrying
each process's current vruntime, the remaining map, the finished-pid
set (order-irrelevant, kept as a duplicate-free list), the clock and
the timeline. -/
structure CfsState where
  procs : List Proc
  ready : List (Proc × ℚ)
  rem : Int → Int
  fin : List Int
  time : Int
  acc : List Slice

/-- `finished.add(pid)` on a set. -/
def insertNew (l : List Int) (x : Int) : List Int :=
  if x ∈ l then l else x :: l

/-- The `while len(finished) < len(remaining)` loop of `cfs`:
`len(remaining)` is the number of distinct input pids, passed as
`nKeys`.  Dispatch the least `(vruntime, pid)`; run
`exec = min(time_slice, remaining)`; `weight = max(1.0, priority)`;
`vruntime += exec / weight`; re-insert while work remains. -/
def cfsGo (ts : Int) (nKeys : ℕ) : ℕ → CfsState → Option (List Slice)
  | 0, _ => none
  | fuel+1, st =>
    if st.fin.length < nKeys then
      let adm := st.procs.takeWhile (fun x => decide (x.arrival ≤ st.time))
      let procs1 := st.procs.dropWhile (fun x => decide (x.arrival ≤ st.time))
      match st.ready ++ adm.map (fun p => (p, (0 : ℚ))) with
      | [] =>
        match procs1 with
        | q :: _ => cfsGo ts nKeys fuel
            { st with procs := procs1, ready := [], time := max (st.time + 1) q.arrival }
        | [] => cfsGo ts nKeys fuel
            { st with procs := [], ready := [], time := st.time + 1 }
      | r0 :: rrest =>
        let pr := selectMinBy (fun x => toLex (x.2, x.1.pid)) r0 rrest
        let p := pr.1.1
        let e := min ts (st.rem p.pid)
        let rem1 := updateMap st.rem p.pid (st.rem p.pid - e)
        let w : ℚ := max 1 (p.priority : ℚ)
        let vr1 : ℚ := pr.1.2 + (e : ℚ) / w
        let acc1 := st.acc ++ [⟨p.pid, st.time, st.time + e⟩]
        if st.rem p.pid - e ≤ 0 then
          cfsGo ts nKeys fuel
            { procs := procs1, ready := pr.2, rem := rem1,
              fin := insertNew st.fin p.pid, time := st.time + e, acc := acc1 }
        else
          cfsGo ts nKeys fuel
            { procs := procs1, ready := pr.2 ++ [(p, vr1)],
              rem := rem1, fin := st.fin, time := st.time + e, acc := acc1 }
    else some st.acc

/-- `cfs(processes, time_slice)` — simplified Completely Fair Scheduler,
clock seeded to the first arrival. -/
def cfs (processes : List Proc) (ts : Int) (fuel : ℕ) : Option (List Slice) :=
  let procs := sortByArrival processes
  cfsGo ts ((procs.map Proc.pid).dedup).length fuel
    { procs := procs, ready := [], rem := initRem procs, fin := [],
      time := match procs with | [] => 0 | p :: _ => p.arrival, acc := [] }

/-! ## `mlfq` (src/algorithms.py lines 276–320) -/

/-- `ready_queues[0].append(...)` for each admitted arrival.  An empty
queue array (zero levels) would raise `IndexError` in Python; that case
is outside every theorem's hypotheses and modelled as a no-op. -/
def admitTop (qs : List (List Proc)) (adm : List Proc) : List (List Proc) :=
  match qs with
  | [] => []
  | q :: rest => (q ++ adm) :: rest

/-- Scan the queue levels from 0 upward and pop the front of the first
non-empty one, returning the process, its level, and the queues after
the pop. -/
def popFirst : List (List Proc) → Option (Proc × ℕ × List (List Proc))
  | [] => none
  | [] :: qs =>
    match popFirst qs with
    | none => none
    | some (p, i, qs1) => some (p, i + 1, [] :: qs1)
  | (p :: q) :: qs => some (p, 0, q :: qs)

/-- Append `p` to the back of queue level `j`. -/
def enqueueAt : List (List Proc) → ℕ → Proc → List (List Proc)
  | [], _, _ => []
  | q :: qs, 0, p => (q ++ [p]) :: qs
  | q :: qs, j+1, p => q :: enqueueAt qs j p

/-- The mutable state of `mlfq`. -/
structure MlfqState where
  procs : List Proc
  queues : List (List Proc)
  rem : Int → Int
  fin : List Int
  time : Int
  acc : List Slice

/-- The `while len(finished) < len(remaining)` loop of `mlfq`: admit
arrivals to level 0, pop the first non-empty level `i`, run
`min(base_quantum * 2^i, remaining)`, and on quantum expiry demote to
level `i+1` (staying in the last level). -/
def mlfqGo (baseQ : Int) (nQ nKeys : ℕ) : ℕ → MlfqState → Option (List Slice)
  | 0, _ => none
  | fuel+1, st =>
    if st.fin.length < nKeys then
      let adm := st.procs.takeWhile (fun x => decide (x.arrival ≤ st.time))
      let procs1 := st.procs.dropWhile (fun x => decide (x.arrival ≤ st.time))
      let qs1 := admitTop st.queues adm
      match popFirst qs1 with
      | some (p, i, qs2) =>
        let quantum := baseQ * 2 ^ i
        let e := min quantum (st.rem p.pid)
        let rem1 := updateMap st.rem p.pid (st.rem p.pid - e)
        let acc1 := st.acc ++ [⟨p.pid, st.time, st.time + e⟩]
        if st.rem p.pid - e ≤ 0 then
          mlfqGo baseQ nQ nKeys fuel
            { procs := procs1, queues := qs2,
              rem := rem1, fin := insertNew st.fin p.pid,
              time := st.time + e, acc := acc1 }
        else
          mlfqGo baseQ nQ nKeys fuel
            { procs := procs1,
              queues := enqueueAt qs2 (if i + 1 < nQ then i + 1 else i) p,
              rem := rem1, fin := st.fin, time := st.time + e, acc := acc1 }
      | none =>
        match procs1 with
        | q :: _ => mlfqGo baseQ nQ nKeys fuel
            { st with
              procs := procs1, queues := qs1,
              time := max (st.time + 1) q.arrival }
        | [] => mlfqGo baseQ nQ nKeys fuel
            { st with procs := [], queues := qs1, time := st.time + 1 }
    else some st.acc

/-- `mlfq(processes, queues, base_quantum)` — multilevel feedback queue,
clock seeded to the first arrival. -/
def mlfq (processes : List Proc) (nQ : ℕ) (baseQ : Int) (fuel : ℕ) :
    Option (List Slice) :=
  let procs := sortByArrival processes
  mlfqGo baseQ nQ ((procs.map Proc.pid).dedup).length fuel
    { procs := procs, queues := List.replicate nQ [], rem := initRem procs,
      fin := [], time := match procs with | [] => 0 | p :: _ => p.arrival,
      acc := [] }

/-! ## Generic facts used by several policies -/

/-- Non-overlap of temporally adjacent slices. -/
def Precedes (a b : Slice) : Prop := a.finish ≤ b.start

/-- Sorting a timeline's slices by their start, as the claims put it. -/
def sortTimelineByStart (tl : List Slice) : List Slice :=
  tl.insertionSort (fun a b => a.start ≤ b.start)

/-- The guarantees each policy run gives: every process's slices sum to
its burst, the emitted order is non-overlapping, durations are
non-negative, and every slice starts no earlier than its process's
arrival. -/
def GoodRun (ps : List Proc) (tl : List Slice) : Prop :=
  (∀ p ∈ ps, sumDur tl p.pid = p.burst) ∧
  List.Chain' Precedes tl ∧
  (∀ s ∈ tl, s.start ≤ s.finish) ∧
  (∀ s ∈ tl, ∀ p ∈ ps, p.pid = s.pid → p.arrival ≤ s.start)

theorem sumDur_append (t1 t2 : List Slice) (x : Int) :
    sumDur (t1 ++ t2) x = sumDur t1 x + sumDur t2 x := by
  simp [sumDur, List.filter_append]

theorem sumDur_single (s : Slice) (x : Int) :
    sumDur [s] x = if s.pid = x then s.finish - s.start else 0 := by
  by_cases h : s.pid = x <;> simp [sumDur, sliceDur, h]

theorem sumDur_snoc (tl : List Slice) (s : Slice) (x : Int) :
    sumDur (tl ++ [s]) x
      = sumDur tl x + (if s.pid = x then s.finish - s.start else 0) := by
  rw [sumDur_append, sumDur_single]

/-- `(pid, duration)` key of every slice. -/
def pidDur (tl : List Slice) : List (Int × Int) :=
  tl.map (fun s => (s.pid, sliceDur s))

/-- `(pid, burst)` key of every process. -/
def pidBurst (qs : List Proc) : List (Int × Int) :=
  qs.map (fun p => (p.pid, p.burst))

/-- Sum of the second components of the pairs whose first component is
`x`. -/
def sumPairs (l : List (Int × Int)) (x : Int) : Int :=
  ((l.filter (fun a => a.1 = x)).map Prod.snd).sum

theorem sumDur_eq_sumPairs (tl : List Slice) (x : Int) :
    sumDur tl x = sumPairs (pidDur tl) x := by
  induction tl with
  | nil => rfl
  | cons s rest ih =>
    by_cases h : s.pid = x <;>
      simp [sumDur, sumPairs, pidDur, sliceDur, h, List.filter] at ih ⊢ <;>
      omega

theorem sumPairs_perm {l1 l2 : List (Int × Int)} (h : l1.Perm l2) (x : Int) :
    sumPairs l1 x = sumPairs l2 x :=
  List.Perm.sum_eq (((h.filter _).map _))

theorem sumPairs_of_not_mem {l : List (Int × Int)} {x : Int}
    (h : x ∉ l.map Prod.fst) : sumPairs l x = 0 := by
  induction l with
  | nil => rfl
  | cons a rest ih =>
    have h1 : ¬(a.1 = x) := fun hc => h (by simp [hc])
    have h2 : x ∉ rest.map Prod.fst := fun hc => h (by simp [hc])
    have := ih h2
    simpa [sumPairs, List.filter_cons, h1] using this

theorem sumPairs_pidBurst {qs : List Proc} {p : Proc}
    (hnd : (qs.map Proc.pid).Nodup) (hp : p ∈ qs) :
    sumPairs (pidBurst qs) p.pid = p.burst := by
  induction qs with
  | nil => cases hp
  | cons a rest ih =>
    simp only [List.map_cons, List.nodup_cons] at hnd
    rcases List.mem_cons.1 hp with rfl | hmem
    · have h0 : sumPairs (pidBurst rest) p.pid = 0 := by
        apply sumPairs_of_not_mem
        simpa [pidBurst, List.map_map, Function.comp] using hnd.1
      simp [pidBurst, sumPairs, List.filter] at h0 ⊢
      omega
    · have hne : a.pid ≠ p.pid := by
        intro hc
        exact hnd.1 (hc ▸ List.mem_map_of_mem Proc.pid hmem)
      have := ih hnd.2 hmem
      simp [pidBurst, sumPairs, List.filter, hne] at this ⊢
      exact this

/-- Distinct pids make processes with equal pid equal. -/
theorem pid_unique {ps : List Proc} {p q : Proc}
    (hnd : (ps.map Proc.pid).Nodup) (h1 : p ∈ ps) (h2 : q ∈ ps)
    (h : p.pid = q.pid) : p = q :=
  List.inj_on_of_nodup_map hnd h1 h2 h

theorem nodup_of_subperm {α : Type} {l1 l2 : List α} (h : l1.Subperm l2)
    (h2 : l2.Nodup) : l1.Nodup := by
  obtain ⟨u, hperm, hsub⟩ := h
  exact hperm.nodup (hsub.nodup h2)

theorem chain'_snoc {l : List Slice} {s : Slice} (h : List.Chain' Precedes l)
    (hl : ∀ x ∈ l.getLast?, Precedes x s) :
    List.Chain' Precedes (l ++ [s]) :=
  List.chain'_append.2 ⟨h, List.chain'_singleton s, by
    intro x hx y hy
    simp only [List.head?_cons, Option.mem_def, Option.some.injEq] at hy
    exact hy ▸ hl x hx⟩

theorem getLast?_snoc (l : List Slice) (s : Slice) :
    (l ++ [s]).getLast? = some s := by
  simp [List.getLast?_concat]

/-- A chained timeline with non-negative durations is sorted by start. -/
theorem sorted_start_of_chain :
    ∀ {tl : List Slice}, List.Chain' Precedes tl →
      (∀ s ∈ tl, s.start ≤ s.finish) →
      tl.Sorted (fun a b => a.start ≤ b.start)
  | [], _, _ => List.sorted_nil
  | [_], _, _ => List.sorted_singleton _
  | a :: b :: rest, hc, hd => by
    have hc' := (List.chain'_cons.1 hc)
    have ih := sorted_start_of_chain hc'.2
      (fun s hs => hd s (List.mem_cons_of_mem a hs))
    refine List.sorted_cons.2 ⟨?_, ih⟩
    intro c hc2
    have hab : a.start ≤ b.start :=
      le_trans (hd a (by simp)) hc'.1
    rcases List.mem_cons.1 hc2 with rfl | hmem
    · exact hab
    · exact le_trans hab ((List.sorted_cons.1 ih).1 c hmem)

/-- On a chained timeline with non-negative durations, sorting by start
is the identity, so the emitted order is the claims' sorted order. -/
theorem sortTimelineByStart_eq {tl : List Slice}
    (hc : List.Chain' Precedes tl) (hd : ∀ s ∈ tl, s.start ≤ s.finish) :
    sortTimelineByStart tl = tl :=
  List.Sorted.insertionSort_eq (sorted_start_of_chain hc hd)

theorem selectMinBy_nil {α κ : Type} [LinearOrder κ] (key : α → κ) (p : α) :
    selectMinBy key p [] = (p, []) := rfl

theorem selectMinBy_cons {α κ : Type} [LinearOrder κ] (key : α → κ)
    (p q : α) (rest : List α) :
    selectMinBy key p (q :: rest)
      = if key q < key p then
          ((selectMinBy key q rest).1, p :: (selectMinBy key q rest).2)
        else
          ((selectMinBy key p rest).1, q :: (selectMinBy key p rest).2) := rfl

theorem selectMinBy_perm {α κ : Type} [LinearOrder κ] (key : α → κ) :
    ∀ (l : List α) (p : α),
      ((selectMinBy key p l).1 :: (selectMinBy key p l).2).Perm (p :: l)
  | [], p => by simp [selectMinBy_nil]
  | q :: rest, p => by
    rw [selectMinBy_cons]
    by_cases h : key q < key p
    · rw [if_pos h]
      exact ((List.Perm.swap p _ _).trans ((selectMinBy_perm key rest q).cons p))
    · rw [if_neg h]
      exact ((List.Perm.swap q _ _).trans
        ((selectMinBy_perm key rest p).cons q)).trans (List.Perm.swap p q rest)

theorem selectMinBy_min {α κ : Type} [LinearOrder κ] (key : α → κ) :
    ∀ (l : List α) (p : α), ∀ x ∈ p :: l,
      key (selectMinBy key p l).1 ≤ key x
  | [], p => by simp [selectMinBy_nil]
  | q :: rest, p => by
    intro x hx
    rw [selectMinBy_cons]
    by_cases h : key q < key p
    · rw [if_pos h]
      rcases List.mem_cons.1 hx with rfl | hx'
      · exact le_trans (selectMinBy_min key rest q q (by simp)) h.le
      · exact selectMinBy_min key rest q x hx'
    · rw [if_neg h]
      rcases List.mem_cons.1 hx with rfl | hx'
      · exact selectMinBy_min key rest x x (by simp)
      · rcases List.mem_cons.1 hx' with rfl | hx''
        · exact le_trans (selectMinBy_min key rest p p (by simp)) (not_lt.1 h)
        · exact selectMinBy_min key rest p x (by simp [hx''])

theorem updateMap_self (m : Int → Int) (k v : Int) : updateMap m k v k = v := by
  simp [updateMap]

theorem updateMap_ne (m : Int → Int) {k v x : Int} (h : x ≠ k) :
    updateMap m k v x = m x := by
  simp [updateMap, h]

theorem foldl_upd_not_mem :
    ∀ (l : List Proc) (m : Int → Int) (x : Int), x ∉ l.map Proc.pid →
      (l.foldl (fun m p => updateMap m p.pid p.burst) m) x = m x
  | [], _, _, _ => rfl
  | a :: rest, m, x, h => by
    simp only [List.map_cons, List.mem_cons, not_or] at h
    rw [List.foldl_cons, foldl_upd_not_mem rest _ x h.2, updateMap_ne m h.1]

theorem foldl_upd_mem :
    ∀ (l : List Proc) (m : Int → Int) (p : Proc), (l.map Proc.pid).Nodup →
      p ∈ l →
      (l.foldl (fun m q => updateMap m q.pid q.burst) m) p.pid = p.burst
  | [], _, p, _, hp => absurd hp (List.not_mem_nil p)
  | a :: rest, m, p, hnd, hp => by
    simp only [List.map_cons, List.nodup_cons] at hnd
    rcases List.mem_cons.1 hp with rfl | hmem
    · rw [List.foldl_cons, foldl_upd_not_mem rest _ p.pid hnd.1, updateMap_self]
    · rw [List.foldl_cons]
      exact foldl_upd_mem rest _ p hnd.2 hmem

theorem initRem_eq {ps : List Proc} {p : Proc}
    (hnd : (ps.map Proc.pid).Nodup) (hp : p ∈ ps) :
    initRem ps p.pid = p.burst :=
  foldl_upd_mem ps _ p hnd hp

/-! ## Verified properties of `fcfs` -/

theorem fcfsGo_pidDur : ∀ (l : List Proc) (t : Int),
    pidDur (fcfsGo l t) = pidBurst l
  | [], _ => rfl
  | p :: rest, t => by
    have ih := fcfsGo_pidDur rest (max t p.arrival + p.burst)
    simp only [fcfsGo, pidDur, pidBurst, sliceDur, List.map_cons,
      List.cons.injEq] at ih ⊢
    exact ⟨by simp only [Prod.mk.injEq]; exact ⟨trivial, by omega⟩, ih⟩

theorem fcfsGo_props : ∀ (l : List Proc) (t : Int),
    (∀ p ∈ l, 1 ≤ p.burst) →
    List.Chain' Precedes (fcfsGo l t) ∧
    (∀ s ∈ fcfsGo l t, s.start ≤ s.finish ∧ t ≤ s.start ∧
      ∃ p ∈ l, p.pid = s.pid ∧ p.arrival ≤ s.start)
  | [], _, _ => ⟨List.chain'_nil, by simp [fcfsGo]⟩
  | p :: rest, t, hb => by
    have hb' : ∀ q ∈ rest, 1 ≤ q.burst := fun q hq => hb q (List.mem_cons_of_mem p hq)
    have ih := fcfsGo_props rest (max t p.arrival + p.burst) hb'
    have hp1 : (1 : Int) ≤ p.burst := hb p (List.mem_cons_self p rest)
    constructor
    · rw [fcfsGo, List.chain'_cons']
      refine ⟨?_, ih.1⟩
      intro h hh
      have := (ih.2 h (List.mem_of_mem_head? hh)).2.1
      simpa [Precedes] using this
    · intro s hs
      rw [fcfsGo, List.mem_cons] at hs
      rcases hs with rfl | hs
      · refine ⟨by simp only; omega, le_max_left _ _, p,
          List.mem_cons_self p rest, rfl, le_max_right _ _⟩
      · obtain ⟨hd, ht, q, hq, hqs⟩ := ih.2 s hs
        exact ⟨hd, by omega, q, List.mem_cons_of_mem p hq, hqs⟩

theorem fcfs_goodRun {ps : List Proc} (hv : ValidInput ps) :
    GoodRun ps (fcfs ps) := by
  obtain ⟨hne, hnd, hall⟩ := hv
  have hperm : (sortByArrival ps).Perm ps := List.perm_insertionSort _ ps
  have hb : ∀ p ∈ sortByArrival ps, 1 ≤ p.burst :=
    fun p hp => (hall p (hperm.mem_iff.1 hp)).2.2
  have hprops := fcfsGo_props (sortByArrival ps) 0 hb
  refine ⟨?_, hprops.1, fun s hs => (hprops.2 s hs).1, ?_⟩
  · intro p hp
    have hmem : p ∈ sortByArrival ps := hperm.mem_iff.2 hp
    have hnd' : ((sortByArrival ps).map Proc.pid).Nodup :=
      ((hperm.map Proc.pid).nodup_iff).2 hnd
    calc sumDur (fcfs ps) p.pid
        = sumPairs (pidDur (fcfsGo (sortByArrival ps) 0)) p.pid :=
          sumDur_eq_sumPairs _ _
      _ = sumPairs (pidBurst (sortByArrival ps)) p.pid := by
          rw [fcfsGo_pidDur]
      _ = p.burst := sumPairs_pidBurst hnd' hmem
  · intro s hs p hp hpid
    obtain ⟨hd, ht, q, hq, hqpid, hqarr⟩ := hprops.2 s hs
    have hpq : p = q :=
      pid_unique hnd hp (hperm.mem_iff.1 hq) (by rw [hpid, ← hqpid])
    exact hpq ▸ hqarr

/-! ## Shared step lemmas for the ready-set loops -/

/-- Admitting the arrivals and removing the dispatched process is a
permutation-level rearrangement of the pending multiset. -/
theorem step_perm {procs ready rest : List Proc} {p : Proc}
    {pr : Proc → Bool}
    (hperm : (p :: rest).Perm (ready ++ procs.takeWhile pr)) :
    (p :: (procs.dropWhile pr ++ rest)).Perm (procs ++ ready) := by
  have h1 : (p :: (procs.dropWhile pr ++ rest)).Perm
      (procs.dropWhile pr ++ (p :: rest)) := List.perm_middle.symm
  have h2 : (procs.dropWhile pr ++ (p :: rest)).Perm
      (procs.dropWhile pr ++ (procs.takeWhile pr ++ ready)) :=
    List.Perm.append_left _ (hperm.trans List.perm_append_comm)
  have h3 : (procs.dropWhile pr ++ (procs.takeWhile pr ++ ready)).Perm
      ((procs.takeWhile pr ++ procs.dropWhile pr) ++ ready) := by
    rw [← List.append_assoc]
    exact List.Perm.append_right _ List.perm_append_comm
  have h4 : (procs.takeWhile pr ++ procs.dropWhile pr) ++ ready
      = procs ++ ready := by rw [List.takeWhile_append_dropWhile]
  exact h4 ▸ ((h1.trans h2).trans h3)

theorem pidDur_snoc_burst (acc : List Slice) (x s f : Int) :
    pidDur (acc ++ [⟨x, s, f⟩]) = pidDur acc ++ [(x, f - s)] := by
  simp [pidDur, sliceDur]

theorem pidBurst_cons (p : Proc) (l : List Proc) :
    pidBurst (p :: l) = (p.pid, p.burst) :: pidBurst l := rfl

theorem append_nil_perm {l1 l2 : List Proc} (h : (l1 ++ l2) = []) :
    l1 = [] ∧ l2 = [] := List.append_eq_nil.1 h

theorem sort_nil_of_eq {r : Proc → Proc → Prop} [DecidableRel r]
    {l : List Proc} (h : l.insertionSort r = []) : l = [] := by
  have := List.perm_insertionSort r l
  rw [h] at this
  exact (this.symm).eq_nil

theorem subperm_step {procs ready rest : List Proc} {p : Proc}
    {pr : Proc → Bool} {ps : List Proc}
    (hperm : (p :: rest).Perm (ready ++ procs.takeWhile pr))
    (hsub : (procs ++ ready).Subperm ps) :
    ((procs.dropWhile pr ++ rest)).Subperm ps := by
  have h1 : (procs.dropWhile pr ++ rest).Subperm
      (p :: (procs.dropWhile pr ++ rest)) :=
    (List.sublist_cons_self _ _).subperm
  exact h1.trans ((step_perm hperm).subperm.trans hsub)

theorem mem_of_step {procs ready rest : List Proc} {p : Proc}
    {pr : Proc → Bool} {ps : List Proc}
    (hperm : (p :: rest).Perm (ready ++ procs.takeWhile pr))
    (hsub : (procs ++ ready).Subperm ps) : p ∈ ps :=
  (step_perm hperm).subperm.subset.trans hsub.subset (List.mem_cons_self _ _)

/-! ## Verified properties of `sjf` -/

theorem sjfGo_perm : ∀ (fuel : ℕ) (procs ready : List Proc) (time : Int)
    (acc tl : List Slice),
    sjfGo fuel procs ready time acc = some tl →
    (pidDur tl).Perm (pidDur acc ++ pidBurst (procs ++ ready))
  | 0, _, _, _, _, _, h => by cases h
  | fuel+1, procs, ready, time, acc, tl, hrun => by
    by_cases hemp : procs.isEmpty && ready.isEmpty
    · rw [sjfGo, if_pos hemp] at hrun
      obtain rfl : acc = tl := Option.some.inj hrun
      simp only [Bool.and_eq_true, List.isEmpty_iff] at hemp
      simp [hemp.1, hemp.2, pidBurst]
    · rw [sjfGo, if_neg hemp] at hrun
      simp only [] at hrun
      split at hrun
      next p rest hs =>
        have ih := sjfGo_perm fuel _ _ _ _ _ hrun
        have hperm : (p :: rest).Perm
            (ready ++ procs.takeWhile (fun x => decide (x.arrival ≤ time))) := by
          rw [← hs]
          exact List.perm_insertionSort _ _
        have hfix : max time p.arrival + p.burst - max time p.arrival
            = p.burst := by omega
        refine ih.trans ?_
        rw [pidDur_snoc_burst, hfix, List.append_assoc, List.singleton_append,
          ← pidBurst_cons]
        exact List.Perm.append_left _ ((step_perm hperm).map _)
      next hs =>
        have hr1 : ready ++ procs.takeWhile (fun x => decide (x.arrival ≤ time))
            = [] := sort_nil_of_eq hs
        obtain ⟨hrdy, htw⟩ := append_nil_perm hr1
        have hdw : procs.dropWhile (fun x => decide (x.arrival ≤ time)) = procs := by
          have h5 := List.takeWhile_append_dropWhile
            (p := fun x => decide (x.arrival ≤ time)) (l := procs)
          rw [htw] at h5
          simpa using h5
        split at hrun
        next q qs hq =>
          have ih := sjfGo_perm fuel _ _ _ _ _ hrun
          rw [hdw] at ih
          rw [hrdy]
          simpa using ih
        next hq =>
          obtain rfl : acc = tl := Option.some.inj hrun
          rw [hdw] at hq
          rw [hrdy, hq]
          simp [pidBurst]

theorem sjfGo_props : ∀ (fuel : ℕ) (procs ready : List Proc) (time : Int)
    (acc tl : List Slice) {ps : List Proc},
    (ps.map Proc.pid).Nodup →
    (∀ p ∈ ps, 1 ≤ p.burst) →
    (procs ++ ready).Subperm ps →
    List.Chain' Precedes acc →
    (∀ x ∈ acc.getLast?, x.finish ≤ time) →
    (∀ s ∈ acc, s.start ≤ s.finish) →
    (∀ s ∈ acc, ∀ p ∈ ps, p.pid = s.pid → p.arrival ≤ s.start) →
    sjfGo fuel procs ready time acc = some tl →
    List.Chain' Precedes tl ∧ (∀ s ∈ tl, s.start ≤ s.finish) ∧
    (∀ s ∈ tl, ∀ p ∈ ps, p.pid = s.pid → p.arrival ≤ s.start)
  | 0, _, _, _, _, _, _, _, _, _, _, _, _, _, h => by cases h
  | fuel+1, procs, ready, time, acc, tl, ps, hnd, hb, hsub, hchain, hlast,
      hdur, harr, hrun => by
    by_cases hemp : procs.isEmpty && ready.isEmpty
    · rw [sjfGo, if_pos hemp] at hrun
      obtain rfl : acc = tl := Option.some.inj hrun
      exact ⟨hchain, hdur, harr⟩
    · rw [sjfGo, if_neg hemp] at hrun
      simp only [] at hrun
      split at hrun
      next p rest hs =>
        have hperm : (p :: rest).Perm
            (ready ++ procs.takeWhile (fun x => decide (x.arrival ≤ time))) := by
          rw [← hs]
          exact List.perm_insertionSort _ _
        have hpmem : p ∈ ps := mem_of_step hperm hsub
        have hpb : (1 : Int) ≤ p.burst := hb p hpmem
        refine sjfGo_props fuel _ _ _ _ _ hnd hb
          (subperm_step hperm hsub) ?_ ?_ ?_ ?_ hrun
        · refine chain'_snoc hchain ?_
          intro x hx
          have := hlast x hx
          simp only [Precedes]
          omega
        · intro x hx
          rw [getLast?_snoc] at hx
          simp only [Option.mem_def, Option.some.injEq] at hx
          subst hx
          simp
        · intro s hs1
          rcases List.mem_append.1 hs1 with h | h
          · exact hdur s h
          · simp only [List.mem_singleton] at h
            subst h
            simp only
            omega
        · intro s hs1 q hq hqpid
          rcases List.mem_append.1 hs1 with h | h
          · exact harr s h q hq hqpid
          · simp only [List.mem_singleton] at h
            subst h
            have : q = p := pid_unique hnd hq hpmem hqpid
            subst this
            simp only
            exact le_max_right _ _
      next hs =>
        have hr1 : ready ++ procs.takeWhile (fun x => decide (x.arrival ≤ time))
            = [] := sort_nil_of_eq hs
        obtain ⟨hrdy, htw⟩ := append_nil_perm hr1
        have hdw : procs.dropWhile (fun x => decide (x.arrival ≤ time)) = procs := by
          have h5 := List.takeWhile_append_dropWhile
            (p := fun x => decide (x.arrival ≤ time)) (l := procs)
          rw [htw] at h5
          simpa using h5
        split at hrun
        next q qs hq =>
          rw [hdw] at hrun
          refine sjfGo_props fuel _ _ _ _ _ hnd hb ?_ hchain ?_ hdur harr hrun
          · rw [List.append_nil]
            rw [hrdy, List.append_nil] at hsub
            exact hsub
          · intro x hx
            have := hlast x hx
            have h6 : time ≤ max (time + 1) q.arrival :=
              le_trans (by omega) (le_max_left _ _)
            omega
        next hq =>
          obtain rfl : acc = tl := Option.some.inj hrun
          exact ⟨hchain, hdur, harr⟩

theorem sjf_goodRun {ps : List Proc} {fuel : ℕ} {tl : List Slice}
    (hv : ValidInput ps) (h : sjf ps fuel = some tl) : GoodRun ps tl := by
  obtain ⟨hne, hnd, hall⟩ := hv
  have hperm : (sortByArrival ps).Perm ps := List.perm_insertionSort _ ps
  have hb : ∀ p ∈ ps, 1 ≤ p.burst := fun p hp => (hall p hp).2.2
  have hsub : ((sortByArrival ps) ++ ([] : List Proc)).Subperm ps := by
    rw [List.append_nil]
    exact hperm.subperm
  have hprops := sjfGo_props fuel (sortByArrival ps) [] 0 [] tl hnd hb hsub
    List.chain'_nil (by simp) (by simp) (by simp) h
  refine ⟨?_, hprops.1, hprops.2.1, hprops.2.2⟩
  intro p hp
  have hpd := sjfGo_perm fuel (sortByArrival ps) [] 0 [] tl h
  rw [sumDur_eq_sumPairs]
  rw [sumPairs_perm hpd]
  have h2 : (pidDur [] ++ pidBurst ((sortByArrival ps) ++ [])).Perm
      (pidBurst ps) := by
    simp only [pidDur, List.map_nil, List.nil_append, List.append_nil]
    exact (hperm.map _)
  rw [sumPairs_perm h2]
  exact sumPairs_pidBurst hnd hp

/-! ## Verified properties of `priority_scheduling` -/

theorem prioGo_perm : ∀ (fuel : ℕ) (procs ready : List Proc) (time : Int)
    (acc tl : List Slice),
    prioGo fuel procs ready time acc = some tl →
    (pidDur tl).Perm (pidDur acc ++ pidBurst (procs ++ ready))
  | 0, _, _, _, _, _, h => by cases h
  | fuel+1, procs, ready, time, acc, tl, hrun => by
    by_cases hemp : procs.isEmpty && ready.isEmpty
    · rw [prioGo, if_pos hemp] at hrun
      obtain rfl : acc = tl := Option.some.inj hrun
      simp only [Bool.and_eq_true, List.isEmpty_iff] at hemp
      simp [hemp.1, hemp.2, pidBurst]
    · rw [prioGo, if_neg hemp] at hrun
      simp only [] at hrun
      split at hrun
      next p rest hs =>
        have ih := prioGo_perm fuel _ _ _ _ _ hrun
        have hperm : (p :: rest).Perm
            (ready ++ procs.takeWhile (fun x => decide (x.arrival ≤ time))) := by
          rw [← hs]
          exact List.perm_insertionSort _ _
        have hfix : max time p.arrival + p.burst - max time p.arrival
            = p.burst := by omega
        refine ih.trans ?_
        rw [pidDur_snoc_burst, hfix, List.append_assoc, List.singleton_append,
          ← pidBurst_cons]
        exact List.Perm.append_left _ ((step_perm hperm).map _)
      next hs =>
        have hr1 : ready ++ procs.takeWhile (fun x => decide (x.arrival ≤ time))
            = [] := sort_nil_of_eq hs
        obtain ⟨hrdy, htw⟩ := append_nil_perm hr1
        have hdw : procs.dropWhile (fun x => decide (x.arrival ≤ time)) = procs := by
          have h5 := List.takeWhile_append_dropWhile
            (p := fun x => decide (x.arrival ≤ time)) (l := procs)
          rw [htw] at h5
          simpa using h5
        split at hrun
        next q qs hq =>
          have ih := prioGo_perm fuel _ _ _ _ _ hrun
          rw [hdw] at ih
          rw [hrdy]
          simpa using ih
        next hq =>
          obtain rfl : acc = tl := Option.some.inj hrun
          rw [hdw] at hq
          rw [hrdy, hq]
          simp [pidBurst]

theorem prioGo_props : ∀ (fuel : ℕ) (procs ready : List Proc) (time : Int)
    (acc tl : List Slice) {ps : List Proc},
    (ps.map Proc.pid).Nodup →
    (∀ p ∈ ps, 1 ≤ p.burst) →
    (procs ++ ready).Subperm ps →
    List.Chain' Precedes acc →
    (∀ x ∈ acc.getLast?, x.finish ≤ time) →
    (∀ s ∈ acc, s.start ≤ s.finish) →
    (∀ s ∈ acc, ∀ p ∈ ps, p.pid = s.pid → p.arrival ≤ s.start) →
    prioGo fuel procs ready time acc = some tl →
    List.Chain' Precedes tl ∧ (∀ s ∈ tl, s.start ≤ s.finish) ∧
    (∀ s ∈ tl, ∀ p ∈ ps, p.pid = s.pid → p.arrival ≤ s.start)
  | 0, _, _, _, _, _, _, _, _, _, _, _, _, _, h => by cases h
  | fuel+1, procs, ready, time, acc, tl, ps, hnd, hb, hsub, hchain, hlast,
      hdur, harr, hrun => by
    by_cases hemp : procs.isEmpty && ready.isEmpty
    · rw [prioGo, if_pos hemp] at hrun
      obtain rfl : acc = tl := Option.some.inj hrun
      exact ⟨hchain, hdur, harr⟩
    · rw [prioGo, if_neg hemp] at hrun
      simp only [] at hrun
      split at hrun
      next p rest hs =>
        have hperm : (p :: rest).Perm
            (ready ++ procs.takeWhile (fun x => decide (x.arrival ≤ time))) := by
          rw [← hs]
          exact List.perm_insertionSort _ _
        have hpmem : p ∈ ps := mem_of_step hperm hsub
        have hpb : (1 : Int) ≤ p.burst := hb p hpmem
        refine prioGo_props fuel _ _ _ _ _ hnd hb
          (subperm_step hperm hsub) ?_ ?_ ?_ ?_ hrun
        · refine chain'_snoc hchain ?_
          intro x hx
          have := hlast x hx
          simp only [Precedes]
          omega
        · intro x hx
          rw [getLast?_snoc] at hx
          simp only [Option.mem_def, Option.some.injEq] at hx
          subst hx
          simp
        · intro s hs1
          rcases List.mem_append.1 hs1 with h | h
          · exact hdur s h
          · simp only [List.mem_singleton] at h
            subst h
            simp only
            omega
        · intro s hs1 q hq hqpid
          rcases List.mem_append.1 hs1 with h | h
          · exact harr s h q hq hqpid
          · simp only [List.mem_singleton] at h
            subst h
            have : q = p := pid_unique hnd hq hpmem hqpid
            subst this
            simp only
            exact le_max_right _ _
      next hs =>
        have hr1 : ready ++ procs.takeWhile (fun x => decide (x.arrival ≤ time))
            = [] := sort_nil_of_eq hs
        obtain ⟨hrdy, htw⟩ := append_nil_perm hr1
        have hdw : procs.dropWhile (fun x => decide (x.arrival ≤ time)) = procs := by
          have h5 := List.takeWhile_append_dropWhile
            (p := fun x => decide (x.arrival ≤ time)) (l := procs)
          rw [htw] at h5
          simpa using h5
        split at hrun
        next q qs hq =>
          rw [hdw] at hrun
          refine prioGo_props fuel _ _ _ _ _ hnd hb ?_ hchain ?_ hdur harr hrun
          · rw [List.append_nil]
            rw [hrdy, List.append_nil] at hsub
            exact hsub
          · intro x hx
            have := hlast x hx
            have h6 : time ≤ max (time + 1) q.arrival :=
              le_trans (by omega) (le_max_left _ _)
            omega
        next hq =>
          obtain rfl : acc = tl := Option.some.inj hrun
          exact ⟨hchain, hdur, harr⟩

theorem prio_goodRun {ps : List Proc} {fuel : ℕ} {tl : List Slice}
    (hv : ValidInput ps) (h : priority_scheduling ps fuel = some tl) :
    GoodRun ps tl := by
  obtain ⟨hne, hnd, hall⟩ := hv
  have hperm : (sortByArrival ps).Perm ps := List.perm_insertionSort _ ps
  have hb : ∀ p ∈ ps, 1 ≤ p.burst := fun p hp => (hall p hp).2.2
  have hsub : ((sortByArrival ps) ++ ([] : List Proc)).Subperm ps := by
    rw [List.append_nil]
    exact hperm.subperm
  have hprops := prioGo_props fuel (sortByArrival ps) [] 0 [] tl hnd hb hsub
    List.chain'_nil (by simp) (by simp) (by simp) h
  refine ⟨?_, hprops.1, hprops.2.1, hprops.2.2⟩
  intro p hp
  have hpd := prioGo_perm fuel (sortByArrival ps) [] 0 [] tl h
  rw [sumDur_eq_sumPairs]
  rw [sumPairs_perm hpd]
  have h2 : (pidDur [] ++ pidBurst ((sortByArrival ps) ++ [])).Perm
      (pidBurst ps) := by
    simp only [pidDur, List.map_nil, List.nil_append, List.append_nil]
    exact (hperm.map _)
  rw [sumPairs_perm h2]
  exact sumPairs_pidBurst hnd hp

/-! ## Verified properties of `priority_scheduling_with_aging` -/

theorem agingGo_perm (ai ad : Int) : ∀ (fuel : ℕ) (procs ready : List Proc)
    (ws : Int → Option Int) (time : Int) (acc tl : List Slice),
    agingGo ai ad fuel procs ready ws time acc = some tl →
    (pidDur tl).Perm (pidDur acc ++ pidBurst (procs ++ ready))
  | 0, _, _, _, _, _, _, h => by cases h
  | fuel+1, procs, ready, ws, time, acc, tl, hrun => by
    by_cases hemp : procs.isEmpty && ready.isEmpty
    · rw [agingGo, if_pos hemp] at hrun
      obtain rfl : acc = tl := Option.some.inj hrun
      simp only [Bool.and_eq_true, List.isEmpty_iff] at hemp
      simp [hemp.1, hemp.2, pidBurst]
    · rw [agingGo, if_neg hemp] at hrun
      simp only [] at hrun
      split at hrun
      next hs =>
        obtain ⟨hrdy, htw⟩ := append_nil_perm hs
        have hdw : procs.dropWhile (fun x => decide (x.arrival ≤ time)) = procs := by
          have h5 := List.takeWhile_append_dropWhile
            (p := fun x => decide (x.arrival ≤ time)) (l := procs)
          rw [htw] at h5
          simpa using h5
        split at hrun
        next q qs hq =>
          have ih := agingGo_perm ai ad fuel _ _ _ _ _ _ hrun
          rw [hdw] at ih
          rw [hrdy]
          simpa using ih
        next hq =>
          obtain rfl : acc = tl := Option.some.inj hrun
          rw [hdw] at hq
          rw [hrdy, hq]
          simp [pidBurst]
      next r0 rrest hs =>
        have ih := agingGo_perm ai ad fuel _ _ _ _ _ _ hrun
        have hperm : ((selectMinBy (fun x =>
              toLex (effective_priority ai ad
                (setWaiting (procs.takeWhile (fun x => decide (x.arrival ≤ time)))
                  time ws) x time, toLex (x.arrival, x.pid))) r0 rrest).1 ::
            (selectMinBy (fun x =>
              toLex (effective_priority ai ad
                (setWaiting (procs.takeWhile (fun x => decide (x.arrival ≤ time)))
                  time ws) x time, toLex (x.arrival, x.pid))) r0 rrest).2).Perm
            (ready ++ procs.takeWhile (fun x => decide (x.arrival ≤ time))) :=
          (selectMinBy_perm _ rrest r0).trans (hs ▸ List.Perm.refl _)
        have hfix : ∀ p : Proc, max time p.arrival + p.burst - max time p.arrival
            = p.burst := by intro p; omega
        refine ih.trans ?_
        rw [pidDur_snoc_burst, hfix, List.append_assoc, List.singleton_append,
          ← pidBurst_cons]
        exact List.Perm.append_left _ ((step_perm hperm).map _)

theorem agingGo_props (ai ad : Int) : ∀ (fuel : ℕ) (procs ready : List Proc)
    (ws : Int → Option Int) (time : Int) (acc tl : List Slice)
    {ps : List Proc},
    (ps.map Proc.pid).Nodup →
    (∀ p ∈ ps, 1 ≤ p.burst) →
    (procs ++ ready).Subperm ps →
    List.Chain' Precedes acc →
    (∀ x ∈ acc.getLast?, x.finish ≤ time) →
    (∀ s ∈ acc, s.start ≤ s.finish) →
    (∀ s ∈ acc, ∀ p ∈ ps, p.pid = s.pid → p.arrival ≤ s.start) →
    agingGo ai ad fuel procs ready ws time acc = some tl →
    List.Chain' Precedes tl ∧ (∀ s ∈ tl, s.start ≤ s.finish) ∧
    (∀ s ∈ tl, ∀ p ∈ ps, p.pid = s.pid → p.arrival ≤ s.start)
  | 0, _, _, _, _, _, _, _, _, _, _, _, _, _, _, h => by cases h
  | fuel+1, procs, ready, ws, time, acc, tl, ps, hnd, hb, hsub, hchain, hlast,
      hdur, harr, hrun => by
    by_cases hemp : procs.isEmpty && ready.isEmpty
    · rw [agingGo, if_pos hemp] at hrun
      obtain rfl : acc = tl := Option.some.inj hrun
      exact ⟨hchain, hdur, harr⟩
    · rw [agingGo, if_neg hemp] at hrun
      simp only [] at hrun
      split at hrun
      next hs =>
        obtain ⟨hrdy, htw⟩ := append_nil_perm hs
        have hdw : procs.dropWhile (fun x => decide (x.arrival ≤ time)) = procs := by
          have h5 := List.takeWhile_append_dropWhile
            (p := fun x => decide (x.arrival ≤ time)) (l := procs)
          rw [htw] at h5
          simpa using h5
        split at hrun
        next q qs hq =>
          rw [hdw] at hrun
          refine agingGo_props ai ad fuel _ _ _ _ _ _ hnd hb ?_ hchain ?_
            hdur harr hrun
          · rw [List.append_nil]
            rw [hrdy, List.append_nil] at hsub
            exact hsub
          · intro x hx
            have := hlast x hx
            have h6 : time ≤ max (time + 1) q.arrival :=
              le_trans (by omega) (le_max_left _ _)
            omega
        next hq =>
          obtain rfl : acc = tl := Option.some.inj hrun
          exact ⟨hchain, hdur, harr⟩
      next r0 rrest hs =>
        have hperm0 := selectMinBy_perm (fun x =>
          toLex (effective_priority ai ad
            (setWaiting (procs.takeWhile (fun x => decide (x.arrival ≤ time)))
              time ws) x time, toLex (x.arrival, x.pid))) rrest r0
        have hveq : (r0 :: rrest)
            = ready ++ procs.takeWhile (fun x => decide (x.arrival ≤ time)) :=
          hs.symm
        have hperm := hveq ▸ hperm0
        have hpmem := mem_of_step hperm hsub
        have hpb := hb _ hpmem
        refine agingGo_props ai ad fuel _ _ _ _ _ _ hnd hb
          (subperm_step hperm hsub) ?_ ?_ ?_ ?_ hrun
        · refine chain'_snoc hchain ?_
          intro x hx
          have := hlast x hx
          simp only [Precedes]
          omega
        · intro x hx
          rw [getLast?_snoc] at hx
          simp only [Option.mem_def, Option.some.injEq] at hx
          subst hx
          simp
        · intro s hs1
          rcases List.mem_append.1 hs1 with h | h
          · exact hdur s h
          · simp only [List.mem_singleton] at h
            subst h
            simp only
            omega
        · intro s hs1 q hq hqpid
          rcases List.mem_append.1 hs1 with h | h
          · exact harr s h q hq hqpid
          · simp only [List.mem_singleton] at h
            subst h
            have : q = _ := pid_unique hnd hq hpmem hqpid
            subst this
            simp only
            exact le_max_right _ _

theorem aging_goodRun {ps : List Proc} {ai ad : Int} {fuel : ℕ}
    {tl : List Slice} (hv : ValidInput ps)
    (h : priority_scheduling_with_aging ps ai ad fuel = some tl) :
    GoodRun ps tl := by
  obtain ⟨hne, hnd, hall⟩ := hv
  have hperm : (sortByArrival ps).Perm ps := List.perm_insertionSort _ ps
  have hb : ∀ p ∈ ps, 1 ≤ p.burst := fun p hp => (hall p hp).2.2
  have hsub : ((sortByArrival ps) ++ ([] : List Proc)).Subperm ps := by
    rw [List.append_nil]
    exact hperm.subperm
  have hprops := agingGo_props ai ad fuel (sortByArrival ps) []
    (fun _ => none) _ [] tl hnd hb hsub List.chain'_nil (by simp) (by simp)
    (by simp) h
  refine ⟨?_, hprops.1, hprops.2.1, hprops.2.2⟩
  intro p hp
  have hpd := agingGo_perm ai ad fuel (sortByArrival ps) [] (fun _ => none)
    _ [] tl h
  rw [sumDur_eq_sumPairs]
  rw [sumPairs_perm hpd]
  have h2 : (pidDur [] ++ pidBurst ((sortByArrival ps) ++ [])).Perm
      (pidBurst ps) := by
    simp only [pidDur, List.map_nil, List.nil_append, List.append_nil]
    exact (hperm.map _)
  rw [sumPairs_perm h2]
  exact sumPairs_pidBurst hnd hp

/-! ## Verified properties of `round_robin` -/

theorem subperm_map {α β : Type} (f : α → β) {l1 l2 : List α}
    (h : l1.Subperm l2) : (l1.map f).Subperm (l2.map f) := by
  obtain ⟨u, hp, hs⟩ := h
  exact ⟨u.map f, hp.map f, hs.map f⟩

/-- The loop invariant of `round_robin`: the pending/pided multiset is a
sub-multiset of the input, the remaining map accounts for the emitted
durations, queued work is positive, queued arrivals are in the past, and
the accumulated timeline is well-formed. -/
structure RRInv (ps procs q : List Proc) (rem : Int → Int) (time : Int)
    (acc : List Slice) : Prop where
  hsub : (procs ++ q).Subperm ps
  hrem_eq : ∀ p ∈ ps, sumDur acc p.pid + rem p.pid = p.burst
  hrem0 : ∀ p ∈ ps, p.pid ∉ (procs ++ q).map Proc.pid → rem p.pid = 0
  hremq : ∀ x ∈ q, 1 ≤ rem x.pid
  hremp : ∀ x ∈ procs, rem x.pid = x.burst
  harrq : ∀ x ∈ q, x.arrival ≤ time
  hchain : List.Chain' Precedes acc
  hlast : ∀ x ∈ acc.getLast?, x.finish ≤ time
  hdur : ∀ s ∈ acc, s.start ≤ s.finish
  harr : ∀ s ∈ acc, ∀ p ∈ ps, p.pid = s.pid → p.arrival ≤ s.start

theorem rrDispatch_eq (quantum : Int) (p : Proc) (qrest procs : List Proc)
    (rem : Int → Int) (time : Int) (acc : List Slice) :
    rrDispatch quantum p qrest procs rem time acc
      = (procs.dropWhile
           (fun x => decide (x.arrival ≤ time + min quantum (rem p.pid))),
         qrest ++ procs.takeWhile
           (fun x => decide (x.arrival ≤ time + min quantum (rem p.pid)))
           ++ (if 0 < rem p.pid - min quantum (rem p.pid) then [p] else []),
         updateMap rem p.pid (rem p.pid - min quantum (rem p.pid)),
         time + min quantum (rem p.pid),
         acc ++ [⟨p.pid, time, time + min quantum (rem p.pid)⟩]) := by
  simp only [rrDispatch, updateMap_self]

theorem rrDispatch_inv {ps : List Proc} {quantum : Int} (hq : 1 ≤ quantum)
    (hnd : (ps.map Proc.pid).Nodup) (hb : ∀ p ∈ ps, 1 ≤ p.burst)
    {procs qrest : List Proc} {p : Proc} {rem : Int → Int} {time : Int}
    {acc : List Slice} (inv : RRInv ps procs (p :: qrest) rem time acc) :
    RRInv ps
      (procs.dropWhile
        (fun x => decide (x.arrival ≤ time + min quantum (rem p.pid))))
      (qrest ++ procs.takeWhile
        (fun x => decide (x.arrival ≤ time + min quantum (rem p.pid)))
        ++ (if 0 < rem p.pid - min quantum (rem p.pid) then [p] else []))
      (updateMap rem p.pid (rem p.pid - min quantum (rem p.pid)))
      (time + min quantum (rem p.pid))
      (acc ++ [⟨p.pid, time, time + min quantum (rem p.pid)⟩]) := by
  set e := min quantum (rem p.pid) with he
  set fin := time + e with hfin
  set pr := fun x : Proc => decide (x.arrival ≤ fin) with hpr
  have hpmem : p ∈ ps :=
    inv.hsub.subset (List.mem_append.2 (Or.inr (List.mem_cons_self _ _)))
  have hnd2 : ((procs ++ p :: qrest).map Proc.pid).Nodup :=
    nodup_of_subperm (subperm_map Proc.pid inv.hsub) hnd
  have hdisj : (∀ x ∈ procs, x.pid ≠ p.pid) ∧ (∀ x ∈ qrest, x.pid ≠ p.pid) := by
    rw [List.map_append, List.map_cons, List.nodup_append] at hnd2
    refine ⟨fun x hx hc => ?_, fun x hx hc => ?_⟩
    · exact hnd2.2.2 (List.mem_map_of_mem Proc.pid hx)
        (hc ▸ List.mem_cons_self _ _)
    · exact (List.nodup_cons.1 hnd2.2.1).1 (hc ▸ List.mem_map_of_mem Proc.pid hx)
  have he1 : 1 ≤ e := le_min hq (inv.hremq p (List.mem_cons_self _ _))
  have hele : e ≤ rem p.pid := min_le_right _ _
  have htw : procs.takeWhile pr ++ procs.dropWhile pr = procs :=
    List.takeWhile_append_dropWhile pr procs
  have hsubsets : ∀ x, x ∈ procs.takeWhile pr ∨ x ∈ procs.dropWhile pr →
      x ∈ procs := by
    intro x hx
    rw [← htw]
    rcases hx with h | h
    · exact List.mem_append.2 (Or.inl h)
    · exact List.mem_append.2 (Or.inr h)
  have hsp : (procs.dropWhile pr ++ (qrest ++ procs.takeWhile pr ++
      (if 0 < rem p.pid - e then [p] else []))).Subperm
      (procs ++ p :: qrest) := by
    rw [List.subperm_ext_iff]
    intro x _
    have hcnt : List.count x (procs.takeWhile pr)
        + List.count x (procs.dropWhile pr) = List.count x procs := by
      conv_rhs => rw [← htw]
      rw [List.count_append]
    by_cases hcond : 0 < rem p.pid - e
    · rw [if_pos hcond]
      simp only [List.count_append, List.count_cons, List.count_nil,
        beq_iff_eq]
      by_cases hpx : p = x
      · simp only [hpx, if_pos rfl]
        omega
      · simp only [if_neg hpx]
        omega
    · rw [if_neg hcond]
      simp only [List.count_append, List.count_cons, List.count_nil,
        beq_iff_eq]
      by_cases hpx : p = x
      · simp only [hpx, if_pos rfl]
        omega
      · simp only [if_neg hpx]
        omega
  refine
    { hsub := hsp.trans inv.hsub
      hrem_eq := ?_
      hrem0 := ?_
      hremq := ?_
      hremp := ?_
      harrq := ?_
      hchain := ?_
      hlast := ?_
      hdur := ?_
      harr := ?_ }
  · intro p' hp'
    rw [sumDur_snoc]
    have base := inv.hrem_eq p' hp'
    by_cases hpx : p'.pid = p.pid
    · have h1 : updateMap rem p.pid (rem p.pid - e) p'.pid = rem p.pid - e := by
        rw [hpx]
        exact updateMap_self _ _ _
      rw [if_pos hpx.symm, h1, hpx]
      rw [hpx] at base
      simp only
      omega
    · have h1 : updateMap rem p.pid (rem p.pid - e) p'.pid = rem p'.pid :=
        updateMap_ne _ hpx
      rw [if_neg (fun hc => hpx hc.symm), h1]
      omega
  · intro p' hp' hnotin
    by_cases hpx : p'.pid = p.pid
    · by_cases hcond : 0 < rem p.pid - e
      · exfalso
        apply hnotin
        rw [hpx, if_pos hcond]
        refine List.mem_map_of_mem Proc.pid ?_
        exact List.mem_append.2 (Or.inr (List.mem_append.2 (Or.inr (by simp))))
      · have h1 : updateMap rem p.pid (rem p.pid - e) p'.pid = rem p.pid - e := by
          rw [hpx]
          exact updateMap_self _ _ _
        rw [h1]
        omega
    · have h1 : updateMap rem p.pid (rem p.pid - e) p'.pid = rem p'.pid :=
        updateMap_ne _ hpx
      rw [h1]
      apply inv.hrem0 p' hp'
      intro hmem
      apply hnotin
      simp only [List.mem_map, List.mem_append, List.mem_cons] at hmem ⊢
      obtain ⟨a, ha, hapid⟩ := hmem
      rcases ha with ha | ha | ha
      · have : a ∈ procs.takeWhile pr ∨ a ∈ procs.dropWhile pr := by
          rw [← htw] at ha
          exact List.mem_append.1 ha
        rcases this with h | h
        · exact ⟨a, Or.inr (Or.inl (Or.inr h)), hapid⟩
        · exact ⟨a, Or.inl h, hapid⟩
      · exact absurd (ha ▸ hapid) (fun hc => hpx hc.symm)
      · exact ⟨a, Or.inr (Or.inl (Or.inl ha)), hapid⟩
  · intro x hx
    rcases List.mem_append.1 hx with hx1 | hxopt
    · rcases List.mem_append.1 hx1 with hxq | hxtw
      · rw [updateMap_ne _ (hdisj.2 x hxq)]
        exact inv.hremq x (List.mem_cons_of_mem p hxq)
      · have hxp : x ∈ procs := hsubsets x (Or.inl hxtw)
        rw [updateMap_ne _ (hdisj.1 x hxp), inv.hremp x hxp]
        exact hb x (inv.hsub.subset (List.mem_append.2 (Or.inl hxp)))
    · by_cases hcond : 0 < rem p.pid - e
      · rw [if_pos hcond] at hxopt
        simp only [List.mem_singleton] at hxopt
        subst hxopt
        rw [updateMap_self]
        omega
      · rw [if_neg hcond] at hxopt
        cases hxopt
  · intro x hx
    have hxp : x ∈ procs := hsubsets x (Or.inr hx)
    rw [updateMap_ne _ (hdisj.1 x hxp)]
    exact inv.hremp x hxp
  · intro x hx
    rcases List.mem_append.1 hx with hx1 | hxopt
    · rcases List.mem_append.1 hx1 with hxq | hxtw
      · have := inv.harrq x (List.mem_cons_of_mem p hxq)
        omega
      · have := List.mem_takeWhile_imp hxtw
        rw [hpr] at this
        exact of_decide_eq_true this
    · by_cases hcond : 0 < rem p.pid - e
      · rw [if_pos hcond] at hxopt
        simp only [List.mem_singleton] at hxopt
        subst hxopt
        have := inv.harrq x (List.mem_cons_self _ _)
        omega
      · rw [if_neg hcond] at hxopt
        cases hxopt
  · refine chain'_snoc inv.hchain ?_
    intro x hx
    have := inv.hlast x hx
    simp only [Precedes]
    omega
  · intro x hx
    rw [getLast?_snoc] at hx
    simp only [Option.mem_def, Option.some.injEq] at hx
    subst hx
    simp
  · intro s hs1
    rcases List.mem_append.1 hs1 with h | h
    · exact inv.hdur s h
    · simp only [List.mem_singleton] at h
      subst h
      simp only
      omega
  · intro s hs1 p' hp' hppid
    rcases List.mem_append.1 hs1 with h | h
    · exact inv.harr s h p' hp' hppid
    · simp only [List.mem_singleton] at h
      subst h
      have hpp : p' = p := pid_unique hnd hp' hpmem hppid
      subst hpp
      simp only
      exact inv.harrq p' (List.mem_cons_self _ _)

theorem rrGo_inv {ps : List Proc} {quantum : Int} (hq : 1 ≤ quantum)
    (hnd : (ps.map Proc.pid).Nodup) (hb : ∀ p ∈ ps, 1 ≤ p.burst) :
    ∀ (fuel : ℕ) (procs q : List Proc) (rem : Int → Int) (time : Int)
      (acc tl : List Slice),
      RRInv ps procs q rem time acc →
      rrGo quantum fuel procs q rem time acc = some tl →
      GoodRun ps tl
  | 0, _, _, _, _, _, _, _, h => by cases h
  | fuel+1, procs, q, rem, time, acc, tl, inv, hrun => by
    cases q with
    | cons p qrest =>
      -- queue non-empty: dispatch its head
      rw [rrGo] at hrun
      have invStep := rrDispatch_inv hq hnd hb inv
      rw [rrDispatch_eq] at hrun
      exact rrGo_inv hq hnd hb fuel _ _ _ _ _ tl invStep hrun
    | nil =>
      cases procs with
      | nil =>
        -- queue and arrivals both exhausted
        rw [rrGo] at hrun
        obtain rfl : acc = tl := Option.some.inj hrun
        refine ⟨?_, inv.hchain, inv.hdur, inv.harr⟩
        intro p hp
        have h0 : rem p.pid = 0 := inv.hrem0 p hp (by simp)
        have := inv.hrem_eq p hp
        omega
      | cons pr prest =>
        -- idle: jump the clock to the next arrival and admit
        rw [rrGo] at hrun
        set t1 := max time pr.arrival with ht1
        set pr1 := fun x : Proc => decide (x.arrival ≤ t1) with hpr1
        have htw1 : prest.takeWhile pr1 ++ prest.dropWhile pr1 = prest :=
          List.takeWhile_append_dropWhile pr1 prest
        have hperm2 : ((prest.dropWhile pr1) ++ (pr :: prest.takeWhile pr1)).Perm
            (pr :: prest) := by
          rw [List.perm_iff_count]
          intro a
          have hcnt := congrArg (List.count a) htw1
          rw [List.count_append] at hcnt
          simp only [List.count_append, List.count_cons, beq_iff_eq]
          by_cases hpa : pr = a
          · simp only [hpa, if_pos rfl]
            omega
          · simp only [if_neg hpa]
            omega
        have hsub0 : ((pr :: prest) ++ ([] : List Proc)).Subperm ps := inv.hsub
        rw [List.append_nil] at hsub0
        have hmempr : pr ∈ ps := hsub0.subset (List.mem_cons_self _ _)
        have hsubsets1 : ∀ x, x ∈ prest.takeWhile pr1 ∨ x ∈ prest.dropWhile pr1 →
            x ∈ prest := by
          intro x hx
          rw [← htw1]
          rcases hx with h | h
          · exact List.mem_append.2 (Or.inl h)
          · exact List.mem_append.2 (Or.inr h)
        have invMid : RRInv ps (prest.dropWhile pr1) (pr :: prest.takeWhile pr1)
            rem t1 acc := by
          refine
            { hsub := hperm2.subperm.trans hsub0
              hrem_eq := inv.hrem_eq
              hrem0 := ?_
              hremq := ?_
              hremp := ?_
              harrq := ?_
              hchain := inv.hchain
              hlast := ?_
              hdur := inv.hdur
              harr := inv.harr }
          · intro p' hp' hnot
            refine inv.hrem0 p' hp' ?_
            intro hmem
            apply hnot
            rw [List.append_nil] at hmem
            exact ((hperm2.map Proc.pid).mem_iff).2 hmem
          · intro x hx
            rcases List.mem_cons.1 hx with rfl | hx'
            · rw [inv.hremp x (List.mem_cons_self _ _)]
              exact hb x hmempr
            · have hxp : x ∈ prest := hsubsets1 x (Or.inl hx')
              rw [inv.hremp x (List.mem_cons_of_mem pr hxp)]
              exact hb x (hsub0.subset (List.mem_cons_of_mem pr hxp))
          · intro x hx
            exact inv.hremp x (List.mem_cons_of_mem pr (hsubsets1 x (Or.inr hx)))
          · intro x hx
            rcases List.mem_cons.1 hx with rfl | hx'
            · exact le_max_right _ _
            · have h8 := List.mem_takeWhile_imp hx'
              simp only [hpr1] at h8
              exact of_decide_eq_true h8
          · intro x hx
            have := inv.hlast x hx
            have h7 : time ≤ t1 := le_max_left _ _
            omega
        have invStep := rrDispatch_inv hq hnd hb invMid
        rw [rrDispatch_eq] at hrun
        exact rrGo_inv hq hnd hb fuel _ _ _ _ _ tl invStep hrun

theorem rr_goodRun {ps : List Proc} {quantum : Int} {fuel : ℕ}
    {tl : List Slice} (hv : ValidInput ps) (hq : 1 ≤ quantum)
    (h : round_robin ps quantum fuel = some tl) : GoodRun ps tl := by
  obtain ⟨hne, hnd, hall⟩ := hv
  have hb : ∀ p ∈ ps, 1 ≤ p.burst := fun p hp => (hall p hp).2.2
  have hperm : (sortByArrival ps).Perm ps := List.perm_insertionSort _ ps
  have hrem : ∀ p ∈ ps, initRem (sortByArrival ps) p.pid = p.burst := by
    intro p hp
    exact initRem_eq ((hperm.map Proc.pid).nodup_iff.2 hnd) (hperm.mem_iff.2 hp)
  rw [round_robin] at h
  split at h
  · -- empty sorted list: impossible for valid input, but the run still
    -- starts from the trivial invariant
    next hnil =>
    refine rrGo_inv hq hnd hb fuel _ _ _ _ _ tl ?_ h
    have hps : ps = [] := (hperm.symm.trans (hnil ▸ List.Perm.refl _)).eq_nil
    refine
      { hsub := by simp
        hrem_eq := by simp [hps]
        hrem0 := by simp [hps]
        hremq := by simp
        hremp := by simp
        harrq := by simp
        hchain := List.chain'_nil
        hlast := by simp
        hdur := by simp
        harr := by simp }
  · next pr prest hcons =>
    set t0 := max 0 pr.arrival with ht0
    set pr0 := fun x : Proc => decide (x.arrival ≤ t0) with hpr0
    have htw0 : prest.takeWhile pr0 ++ prest.dropWhile pr0 = prest :=
      List.takeWhile_append_dropWhile pr0 prest
    have hsub0 : (pr :: prest).Subperm ps := by
      rw [← hcons]
      exact hperm.subperm
    have hmempr : pr ∈ ps := hsub0.subset (List.mem_cons_self _ _)
    have hsubsets0 : ∀ x, x ∈ prest.takeWhile pr0 ∨ x ∈ prest.dropWhile pr0 →
        x ∈ prest := by
      intro x hx
      rw [← htw0]
      rcases hx with h1 | h1
      · exact List.mem_append.2 (Or.inl h1)
      · exact List.mem_append.2 (Or.inr h1)
    have hperm0 : ((prest.dropWhile pr0) ++ (pr :: prest.takeWhile pr0)).Perm
        (pr :: prest) := by
      rw [List.perm_iff_count]
      intro a
      have hcnt := congrArg (List.count a) htw0
      rw [List.count_append] at hcnt
      simp only [List.count_append, List.count_cons, beq_iff_eq]
      by_cases hpa : pr = a
      · simp only [hpa, if_pos rfl]
        omega
      · simp only [if_neg hpa]
        omega
    have hremc : ∀ x ∈ pr :: prest, initRem (pr :: prest) x.pid = x.burst := by
      intro x hx
      rw [← hcons] at hx ⊢
      exact initRem_eq ((hperm.map Proc.pid).nodup_iff.2 hnd)  hx
    refine rrGo_inv hq hnd hb fuel _ _ _ _ _ tl ?_ h
    refine
      { hsub := hperm0.subperm.trans hsub0
        hrem_eq := ?_
        hrem0 := ?_
        hremq := ?_
        hremp := ?_
        harrq := ?_
        hchain := List.chain'_nil
        hlast := by simp
        hdur := by simp
        harr := by simp }
    · intro p hp
      have h1 : initRem (sortByArrival ps) p.pid = p.burst := hrem p hp
      rw [hcons] at h1
      simp [sumDur, h1]
    · intro p hp hnot
      exfalso
      apply hnot
      have hpmem : p.pid ∈ (pr :: prest).map Proc.pid := by
        rw [← hcons]
        exact List.mem_map_of_mem Proc.pid (hperm.mem_iff.2 hp)
      exact ((hperm0.map Proc.pid).mem_iff).2 hpmem
    · intro x hx
      rcases List.mem_cons.1 hx with rfl | hx'
      · rw [hremc x (List.mem_cons_self _ _)]
        exact hb x hmempr
      · have hxp : x ∈ prest := hsubsets0 x (Or.inl hx')
        rw [hremc x (List.mem_cons_of_mem pr hxp)]
        exact hb x (hsub0.subset (List.mem_cons_of_mem pr hxp))
    · intro x hx
      exact hremc x (List.mem_cons_of_mem pr (hsubsets0 x (Or.inr hx)))
    · intro x hx
      rcases List.mem_cons.1 hx with rfl | hx'
      · exact le_max_right _ _
      · have h8 := List.mem_takeWhile_imp hx'
        simp only [hpr0] at h8
        exact of_decide_eq_true h8

/-! ## Verified properties of `cfs` -/

/-- The loop invariant of `cfs`. -/
structure CfsInv (ps : List Proc) (st : CfsState) : Prop where
  hsub : (st.procs ++ st.ready.map Prod.fst).Subperm ps
  hrem_eq : ∀ p ∈ ps, sumDur st.acc p.pid + st.rem p.pid = p.burst
  hfin0 : ∀ x ∈ st.fin, st.rem x = 0
  hfinnd : st.fin.Nodup
  hfinsub : st.fin ⊆ ps.map Proc.pid
  hremq : ∀ x ∈ st.ready, 1 ≤ st.rem x.1.pid
  hremp : ∀ x ∈ st.procs, st.rem x.pid = x.burst
  harrq : ∀ x ∈ st.ready, x.1.arrival ≤ st.time
  hchain : List.Chain' Precedes st.acc
  hlast : ∀ x ∈ st.acc.getLast?, x.finish ≤ st.time
  hdur : ∀ s ∈ st.acc, s.start ≤ s.finish
  harr : ∀ s ∈ st.acc, ∀ p ∈ ps, p.pid = s.pid → p.arrival ≤ s.start

theorem insertNew_nodup {l : List Int} {x : Int} (h : l.Nodup) :
    (insertNew l x).Nodup := by
  unfold insertNew
  split
  · exact h
  · exact List.nodup_cons.2 ⟨by assumption, h⟩

theorem mem_insertNew {l : List Int} {x y : Int} (h : y ∈ insertNew l x) :
    y = x ∨ y ∈ l := by
  unfold insertNew at h
  split at h
  · exact Or.inr h
  · exact (List.mem_cons.1 h).imp id id

theorem length_dedup_nodup {l : List Int} (h : l.Nodup) :
    l.dedup.length = l.length := by
  rw [List.dedup_eq_self.2 h]

theorem cfsGo_inv {ps : List Proc} {ts : Int} {nKeys : ℕ} (hts : 1 ≤ ts)
    (hkeys : ps.length ≤ nKeys)
    (hnd : (ps.map Proc.pid).Nodup) (hb : ∀ p ∈ ps, 1 ≤ p.burst) :
    ∀ (fuel : ℕ) (st : CfsState) (tl : List Slice),
      CfsInv ps st →
      cfsGo ts nKeys fuel st = some tl →
      GoodRun ps tl
  | 0, _, _, _, h => by cases h
  | fuel+1, st, tl, inv, hrun => by
    rw [cfsGo] at hrun
    by_cases hguard : st.fin.length < nKeys
    · rw [if_pos hguard] at hrun
      simp only [] at hrun
      split at hrun
      next hs =>
        -- ready set empty after admissions
        obtain ⟨hrdy, hadm0⟩ := List.append_eq_nil.1 hs
        have hadm : st.procs.takeWhile
            (fun x => decide (x.arrival ≤ st.time)) = [] :=
          List.map_eq_nil_iff.1 hadm0
        have hdw : st.procs.dropWhile
            (fun x => decide (x.arrival ≤ st.time)) = st.procs := by
          have h5 := List.takeWhile_append_dropWhile
            (p := fun x : Proc => decide (x.arrival ≤ st.time)) (l := st.procs)
          rw [hadm] at h5
          simpa using h5
        rw [hdw] at hrun
        split at hrun
        next q qs hq =>
          refine cfsGo_inv hts hkeys hnd hb fuel _ tl ?_ hrun
          have h6 : st.time ≤ max (st.time + 1) q.arrival :=
            le_trans (by omega) (le_max_left _ _)
          exact
            { hsub := hrdy ▸ inv.hsub
              hrem_eq := inv.hrem_eq
              hfin0 := inv.hfin0
              hfinnd := inv.hfinnd
              hfinsub := inv.hfinsub
              hremq := fun x hx => absurd hx (List.not_mem_nil x)
              hremp := inv.hremp
              harrq := fun x hx => absurd hx (List.not_mem_nil x)
              hchain := inv.hchain
              hlast := fun x hx => le_trans (inv.hlast x hx) h6
              hdur := inv.hdur
              harr := inv.harr }
        next hq =>
          refine cfsGo_inv hts hkeys hnd hb fuel _ tl ?_ hrun
          have hsubnil : (([] : List Proc) ++
              ([] : List (Proc × ℚ)).map Prod.fst).Subperm ps := by
            simp
          exact
            { hsub := hsubnil
              hrem_eq := inv.hrem_eq
              hfin0 := inv.hfin0
              hfinnd := inv.hfinnd
              hfinsub := inv.hfinsub
              hremq := fun x hx => absurd hx (List.not_mem_nil x)
              hremp := fun x hx => absurd hx (List.not_mem_nil x)
              harrq := fun x hx => absurd hx (List.not_mem_nil x)
              hchain := inv.hchain
              hlast := fun x hx => le_trans (inv.hlast x hx)
                (show st.time ≤ st.time + 1 by omega)
              hdur := inv.hdur
              harr := inv.harr }
      next r0 rrest hs =>
        -- dispatch the minimum (vruntime, pid)
        set adm := st.procs.takeWhile (fun x => decide (x.arrival ≤ st.time))
          with hadm
        set procs1 := st.procs.dropWhile (fun x => decide (x.arrival ≤ st.time))
          with hprocs1
        set key := fun x : Proc × ℚ => toLex (x.2, x.1.pid) with hkey
        have hpermR : ((selectMinBy key r0 rrest).1 ::
            (selectMinBy key r0 rrest).2).Perm
            (st.ready ++ adm.map (fun p => (p, (0 : ℚ)))) := by
          have h0 := selectMinBy_perm key rrest r0
          have hveq : (r0 :: rrest)
              = st.ready ++ adm.map (fun p => (p, (0 : ℚ))) := hs.symm
          exact hveq ▸ h0
        set p := (selectMinBy key r0 rrest).1.1 with hp
        set prest := (selectMinBy key r0 rrest).2 with hprest
        have htw : adm ++ procs1 = st.procs :=
          List.takeWhile_append_dropWhile _ _
        have hmapR : (p :: prest.map Prod.fst).Perm
            (st.ready.map Prod.fst ++ adm) := by
          have h0 := hpermR.map Prod.fst
          rw [List.map_append, List.map_map] at h0
          have h9 : (Prod.fst ∘ fun q : Proc => (q, (0 : ℚ))) = id := rfl
          rw [h9, List.map_id] at h0
          exact h0
        have hperm3 : (st.procs ++ st.ready.map Prod.fst).Perm
            (p :: (procs1 ++ prest.map Prod.fst)) := by
          have s1 : (st.procs ++ st.ready.map Prod.fst)
              = (adm ++ procs1) ++ st.ready.map Prod.fst := by rw [htw]
          have s2 : ((adm ++ procs1) ++ st.ready.map Prod.fst).Perm
              (procs1 ++ (st.ready.map Prod.fst ++ adm)) := by
            have t1 : ((adm ++ procs1) ++ st.ready.map Prod.fst).Perm
                ((procs1 ++ adm) ++ st.ready.map Prod.fst) :=
              List.Perm.append_right _ List.perm_append_comm
            have t2 : ((procs1 ++ adm) ++ st.ready.map Prod.fst)
                = procs1 ++ (adm ++ st.ready.map Prod.fst) :=
              List.append_assoc _ _ _
            have t3 : (procs1 ++ (adm ++ st.ready.map Prod.fst)).Perm
                (procs1 ++ (st.ready.map Prod.fst ++ adm)) :=
              List.Perm.append_left _ List.perm_append_comm
            exact (t1.trans (t2 ▸ List.Perm.refl _)).trans t3
          have s3 : (procs1 ++ (st.ready.map Prod.fst ++ adm)).Perm
              (procs1 ++ (p :: prest.map Prod.fst)) :=
            List.Perm.append_left _ hmapR.symm
          have s4 : (procs1 ++ (p :: prest.map Prod.fst)).Perm
              (p :: (procs1 ++ prest.map Prod.fst)) :=
            List.perm_middle
          exact ((s1 ▸ s2).trans s3).trans s4
        have hndAll : ((st.procs ++ st.ready.map Prod.fst).map Proc.pid).Nodup :=
          nodup_of_subperm (subperm_map Proc.pid inv.hsub) hnd
        have hndNew : ((p :: (procs1 ++ prest.map Prod.fst)).map Proc.pid).Nodup :=
          ((hperm3.map Proc.pid).nodup_iff).1 hndAll
        have hdisj : ∀ x ∈ procs1 ++ prest.map Prod.fst, x.pid ≠ p.pid := by
          rw [List.map_cons, List.nodup_cons] at hndNew
          intro x hx hc
          exact hndNew.1 (hc ▸ List.mem_map_of_mem Proc.pid hx)
        have hready1 : ∀ x ∈ st.ready ++ adm.map (fun p => (p, (0 : ℚ))),
            1 ≤ st.rem x.1.pid ∧ x.1.arrival ≤ st.time ∧ x.1 ∈ ps := by
          intro x hx
          rcases List.mem_append.1 hx with hx1 | hx1
          · exact ⟨inv.hremq x hx1, inv.harrq x hx1,
              inv.hsub.subset (List.mem_append.2 (Or.inr
                (List.mem_map_of_mem Prod.fst hx1)))⟩
          · obtain ⟨a, ha, rfl⟩ := List.mem_map.1 hx1
            have haproc : a ∈ st.procs := by
              rw [← htw]
              exact List.mem_append.2 (Or.inl ha)
            have hamem : a ∈ ps :=
              inv.hsub.subset (List.mem_append.2 (Or.inl haproc))
            refine ⟨?_, ?_, hamem⟩
            · rw [inv.hremp a haproc]
              exact hb a hamem
            · have h8 := List.mem_takeWhile_imp ha
              exact of_decide_eq_true h8
        have hpfacts := hready1 _ (hpermR.mem_iff.1 (List.mem_cons_self _ _))
        have hpmem : p ∈ ps := hpfacts.2.2
        have hprem : 1 ≤ st.rem p.pid := hpfacts.1
        have hparr : p.arrival ≤ st.time := hpfacts.2.1
        set e := min ts (st.rem p.pid) with he
        have he1 : 1 ≤ e := le_min hts hprem
        have hele : e ≤ st.rem p.pid := min_le_right _ _
        have hpnotfin : p.pid ∉ st.fin := by
          intro hc
          have := inv.hfin0 _ hc
          omega
        have hrem_eq' : ∀ p' ∈ ps,
            sumDur (st.acc ++ [⟨p.pid, st.time, st.time + e⟩]) p'.pid
              + updateMap st.rem p.pid (st.rem p.pid - e) p'.pid = p'.burst := by
          intro p' hp'
          rw [sumDur_snoc]
          have base := inv.hrem_eq p' hp'
          by_cases hpx : p'.pid = p.pid
          · have h1 : updateMap st.rem p.pid (st.rem p.pid - e) p'.pid
                = st.rem p.pid - e := by
              rw [hpx]
              exact updateMap_self _ _ _
            rw [if_pos hpx.symm, h1, hpx]
            rw [hpx] at base
            simp only
            omega
          · have h1 : updateMap st.rem p.pid (st.rem p.pid - e) p'.pid
                = st.rem p'.pid := updateMap_ne _ hpx
            rw [if_neg (fun hc => hpx hc.symm), h1]
            omega
        have hchain' : List.Chain' Precedes
            (st.acc ++ [⟨p.pid, st.time, st.time + e⟩]) := by
          refine chain'_snoc inv.hchain ?_
          intro x hx
          have := inv.hlast x hx
          simp only [Precedes]
          omega
        have hlast' : ∀ x ∈ (st.acc ++
              [(⟨p.pid, st.time, st.time + e⟩ : Slice)]).getLast?,
            x.finish ≤ st.time + e := by
          intro x hx
          rw [getLast?_snoc] at hx
          simp only [Option.mem_def, Option.some.injEq] at hx
          subst hx
          simp
        have hdur' : ∀ s ∈ st.acc ++ [⟨p.pid, st.time, st.time + e⟩],
            s.start ≤ s.finish := by
          intro s hs1
          rcases List.mem_append.1 hs1 with h | h
          · exact inv.hdur s h
          · simp only [List.mem_singleton] at h
            subst h
            simp only
            omega
        have harr' : ∀ s ∈ st.acc ++ [⟨p.pid, st.time, st.time + e⟩],
            ∀ p' ∈ ps, p'.pid = s.pid → p'.arrival ≤ s.start := by
          intro s hs1 p' hp' hppid
          rcases List.mem_append.1 hs1 with h | h
          · exact inv.harr s h p' hp' hppid
          · simp only [List.mem_singleton] at h
            subst h
            have hpp : p' = p := pid_unique hnd hp' hpmem hppid
            subst hpp
            simp only
            exact hparr
        have hremp' : ∀ x ∈ procs1,
            updateMap st.rem p.pid (st.rem p.pid - e) x.pid = x.burst := by
          intro x hx
          have hxp : x ∈ st.procs := by
            rw [← htw]
            exact List.mem_append.2 (Or.inr hx)
          rw [updateMap_ne _ (hdisj x (List.mem_append.2 (Or.inl hx)))]
          exact inv.hremp x hxp
        have hsub'c : (procs1 ++ prest.map Prod.fst).Subperm ps :=
          ((List.sublist_cons_self _ _).subperm.trans
            hperm3.symm.subperm).trans inv.hsub
        have hremq' : ∀ x ∈ prest,
            1 ≤ updateMap st.rem p.pid (st.rem p.pid - e) x.1.pid := by
          intro x hx
          have hxr : x ∈ st.ready ++ adm.map (fun q => (q, (0 : ℚ))) :=
            hpermR.mem_iff.1 (List.mem_cons_of_mem _ hx)
          have hxfst : x.1 ∈ procs1 ++ prest.map Prod.fst :=
            List.mem_append.2 (Or.inr (List.mem_map_of_mem Prod.fst hx))
          rw [updateMap_ne _ (hdisj _ hxfst)]
          exact (hready1 x hxr).1
        have harrq' : ∀ x ∈ prest, x.1.arrival ≤ st.time + e := by
          intro x hx
          have hxr : x ∈ st.ready ++ adm.map (fun q => (q, (0 : ℚ))) :=
            hpermR.mem_iff.1 (List.mem_cons_of_mem _ hx)
          have := (hready1 x hxr).2.1
          omega
        split at hrun
        next hcomp =>
          -- the dispatched process finished
          have hfin0' : ∀ x ∈ insertNew st.fin p.pid,
              updateMap st.rem p.pid (st.rem p.pid - e) x = 0 := by
            intro x hx
            rcases mem_insertNew hx with rfl | hx1
            · rw [updateMap_self]
              omega
            · have hxne : x ≠ p.pid := fun hc => hpnotfin (hc ▸ hx1)
              rw [updateMap_ne _ hxne]
              exact inv.hfin0 x hx1
          have hfinsub' : insertNew st.fin p.pid ⊆ ps.map Proc.pid := by
            intro x hx
            rcases mem_insertNew hx with rfl | hx1
            · exact List.mem_map_of_mem Proc.pid hpmem
            · exact inv.hfinsub hx1
          refine cfsGo_inv hts hkeys hnd hb fuel _ tl ?_ hrun
          exact
            { hsub := hsub'c
              hrem_eq := hrem_eq'
              hfin0 := hfin0'
              hfinnd := insertNew_nodup inv.hfinnd
              hfinsub := hfinsub'
              hremq := hremq'
              hremp := hremp'
              harrq := harrq'
              hchain := hchain'
              hlast := hlast'
              hdur := hdur'
              harr := harr' }
        next hcomp =>
          -- the dispatched process still has work: re-insert it
          have hreadyApp : ∀ (vr : ℚ) (x : Proc × ℚ), x ∈ prest ++ [(p, vr)] →
              1 ≤ updateMap st.rem p.pid (st.rem p.pid - e) x.1.pid
              ∧ x.1.arrival ≤ st.time + e := by
            intro vr x hx
            rcases List.mem_append.1 hx with hx1 | hx1
            · exact ⟨hremq' x hx1, harrq' x hx1⟩
            · simp only [List.mem_singleton] at hx1
              subst hx1
              constructor
              · show 1 ≤ updateMap st.rem p.pid (st.rem p.pid - e) p.pid
                rw [updateMap_self]
                omega
              · show p.arrival ≤ st.time + e
                omega
          have hsub'n : ∀ vr : ℚ,
              (procs1 ++ (prest ++ [(p, vr)]).map Prod.fst).Subperm ps := by
            intro vr
            have hmeq : (prest ++ [(p, vr)]).map Prod.fst
                = prest.map Prod.fst ++ [p] := by
              rw [List.map_append]
              rfl
            rw [hmeq, ← List.append_assoc]
            have hpp : ((procs1 ++ prest.map Prod.fst) ++ [p]).Perm
                (p :: (procs1 ++ prest.map Prod.fst)) := List.perm_append_comm
            exact hpp.subperm.trans (hperm3.symm.subperm.trans inv.hsub)
          have hfin0'n : ∀ x ∈ st.fin,
              updateMap st.rem p.pid (st.rem p.pid - e) x = 0 := by
            intro x hx
            have hxne : x ≠ p.pid := fun hc => hpnotfin (hc ▸ hx)
            rw [updateMap_ne _ hxne]
            exact inv.hfin0 x hx
          refine cfsGo_inv hts hkeys hnd hb fuel _ tl ?_ hrun
          exact
            { hsub := hsub'n _
              hrem_eq := hrem_eq'
              hfin0 := hfin0'n
              hfinnd := inv.hfinnd
              hfinsub := inv.hfinsub
              hremq := fun x hx => (hreadyApp _ x hx).1
              hremp := hremp'
              harrq := fun x hx => (hreadyApp _ x hx).2
              hchain := hchain'
              hlast := hlast'
              hdur := hdur'
              harr := harr' }
    · -- all distinct pids are finished: the loop returns the timeline
      rw [if_neg hguard] at hrun
      obtain rfl : st.acc = tl := Option.some.inj hrun
      refine ⟨?_, inv.hchain, inv.hdur, inv.harr⟩
      intro p hp
      have hlen : ps.length ≤ st.fin.length := le_trans hkeys (not_lt.1 hguard)
      have hsp : st.fin.Subperm (ps.map Proc.pid) :=
        List.subperm_of_subset inv.hfinnd inv.hfinsub
      have hperm4 : st.fin.Perm (ps.map Proc.pid) :=
        hsp.perm_of_length_le (by simpa using hlen)
      have hpid : p.pid ∈ st.fin :=
        hperm4.mem_iff.2 (List.mem_map_of_mem Proc.pid hp)
      have h0 := inv.hfin0 _ hpid
      have := inv.hrem_eq p hp
      omega

theorem cfs_goodRun {ps : List Proc} {ts : Int} {fuel : ℕ} {tl : List Slice}
    (hv : ValidInput ps) (hts : 1 ≤ ts) (h : cfs ps ts fuel = some tl) :
    GoodRun ps tl := by
  obtain ⟨hne, hnd, hall⟩ := hv
  have hb : ∀ p ∈ ps, 1 ≤ p.burst := fun p hp => (hall p hp).2.2
  have hperm : (sortByArrival ps).Perm ps := List.perm_insertionSort _ ps
  have hndS : ((sortByArrival ps).map Proc.pid).Nodup :=
    (hperm.map _).nodup_iff.2 hnd
  have hkeys : ps.length ≤ ((sortByArrival ps).map Proc.pid).dedup.length := by
    rw [length_dedup_nodup hndS, List.length_map, hperm.length_eq]
  rw [cfs] at h
  refine cfsGo_inv hts hkeys hnd hb fuel _ tl ?_ h
  exact
    { hsub := by simpa using hperm.subperm
      hrem_eq := by
        intro p hp
        have h1 := initRem_eq hndS (hperm.mem_iff.2 hp)
        simp [sumDur, h1]
      hfin0 := fun x hx => absurd hx (List.not_mem_nil x)
      hfinnd := List.nodup_nil
      hfinsub := fun x hx => absurd hx (List.not_mem_nil x)
      hremq := fun x hx => absurd hx (List.not_mem_nil x)
      hremp := fun x hx => initRem_eq hndS hx
      harrq := fun x hx => absurd hx (List.not_mem_nil x)
      hchain := List.chain'_nil
      hlast := by simp
      hdur := by simp
      harr := by simp }

/-! ## Verified properties of `mlfq` -/

theorem popFirst_none_flatten : ∀ {qs : List (List Proc)},
    popFirst qs = none → qs.flatten = []
  | [], _ => rfl
  | [] :: qs, h => by
    rw [popFirst] at h
    split at h
    next h1 =>
      simp [List.flatten_cons, popFirst_none_flatten h1]
    next => cases h
  | (p :: q) :: qs, h => by cases h

theorem popFirst_flatten : ∀ {qs : List (List Proc)} {p : Proc} {i : ℕ}
    {qs2 : List (List Proc)}, popFirst qs = some (p, i, qs2) →
    qs.flatten = p :: qs2.flatten
  | [], _, _, _, h => by cases h
  | [] :: qs, p, i, qs2, h => by
    rw [popFirst] at h
    split at h
    next => cases h
    next p' i' qs1 h1 =>
      have h4 := Option.some.inj h
      rw [Prod.mk.injEq, Prod.mk.injEq] at h4
      obtain ⟨h5, h6, h7⟩ := h4
      subst h5
      subst h7
      simp [List.flatten_cons, popFirst_flatten h1]
  | (p' :: q) :: qs, p, i, qs2, h => by
    rw [popFirst] at h
    have h4 := Option.some.inj h
    rw [Prod.mk.injEq, Prod.mk.injEq] at h4
    obtain ⟨h5, h6, h7⟩ := h4
    subst h5
    subst h7
    simp [List.flatten_cons]

theorem popFirst_length : ∀ {qs : List (List Proc)} {p : Proc} {i : ℕ}
    {qs2 : List (List Proc)}, popFirst qs = some (p, i, qs2) →
    qs2.length = qs.length ∧ i < qs.length
  | [], _, _, _, h => by cases h
  | [] :: qs, p, i, qs2, h => by
    rw [popFirst] at h
    split at h
    next => cases h
    next p' i' qs1 h1 =>
      have h4 := Option.some.inj h
      rw [Prod.mk.injEq, Prod.mk.injEq] at h4
      obtain ⟨h5, h6, h7⟩ := h4
      subst h5
      subst h7
      have ih := popFirst_length h1
      constructor
      · simpa using ih.1
      · simp only [List.length_cons]
        omega
  | (p' :: q) :: qs, p, i, qs2, h => by
    rw [popFirst] at h
    have h4 := Option.some.inj h
    rw [Prod.mk.injEq, Prod.mk.injEq] at h4
    obtain ⟨h5, h6, h7⟩ := h4
    subst h5
    subst h7
    constructor
    · simp
    · rw [← h6]
      simp

theorem enqueueAt_length : ∀ (qs : List (List Proc)) (j : ℕ) (p : Proc),
    (enqueueAt qs j p).length = qs.length
  | [], _, _ => rfl
  | _ :: qs, 0, p => rfl
  | q :: qs, j+1, p => by
    simp [enqueueAt, enqueueAt_length qs j p]

theorem enqueueAt_flatten : ∀ {qs : List (List Proc)} {j : ℕ} (p : Proc),
    j < qs.length → (enqueueAt qs j p).flatten.Perm (p :: qs.flatten)
  | [], j, p, h => by cases h
  | q :: qs, 0, p, _ => by
    simp only [enqueueAt, List.flatten_cons, List.append_assoc]
    have h1 : (q ++ ([p] ++ qs.flatten)).Perm ((q ++ [p]) ++ qs.flatten) := by
      rw [List.append_assoc]
    have h2 : (q ++ ([p] ++ qs.flatten)).Perm (p :: (q ++ qs.flatten)) := by
      have := @List.perm_middle _ p q qs.flatten
      exact this
    exact h2
  | q :: qs, j+1, p, h => by
    simp only [enqueueAt, List.flatten_cons]
    have ih := @enqueueAt_flatten qs j p (by
      simp only [List.length_cons] at h
      omega)
    exact (List.Perm.append_left q ih).trans List.perm_middle

theorem admitTop_flatten {q : List Proc} {rest : List (List Proc)}
    (adm : List Proc) :
    (admitTop (q :: rest) adm).flatten.Perm ((q :: rest).flatten ++ adm) := by
  simp only [admitTop, List.flatten_cons]
  have h1 : ((q ++ adm) ++ rest.flatten).Perm (q ++ (adm ++ rest.flatten)) := by
    rw [List.append_assoc]
  have h2 : (q ++ (adm ++ rest.flatten)).Perm (q ++ (rest.flatten ++ adm)) :=
    List.Perm.append_left q List.perm_append_comm
  have h3 : q ++ (rest.flatten ++ adm) = (q ++ rest.flatten) ++ adm :=
    (List.append_assoc _ _ _).symm
  exact (h1.trans h2).trans (h3 ▸ List.Perm.refl _)

theorem admitTop_length {q : List Proc} {rest : List (List Proc)}
    (adm : List Proc) :
    (admitTop (q :: rest) adm).length = (q :: rest).length := rfl

/-- The loop invariant of `mlfq`. -/
structure MlfqInv (ps : List Proc) (nQ : ℕ) (st : MlfqState) : Prop where
  hqlen : st.queues.length = nQ
  hsub : (st.procs ++ st.queues.flatten).Subperm ps
  hrem_eq : ∀ p ∈ ps, sumDur st.acc p.pid + st.rem p.pid = p.burst
  hfin0 : ∀ x ∈ st.fin, st.rem x = 0
  hfinnd : st.fin.Nodup
  hfinsub : st.fin ⊆ ps.map Proc.pid
  hremq : ∀ x ∈ st.queues.flatten, 1 ≤ st.rem x.pid
  hremp : ∀ x ∈ st.procs, st.rem x.pid = x.burst
  harrq : ∀ x ∈ st.queues.flatten, x.arrival ≤ st.time
  hchain : List.Chain' Precedes st.acc
  hlast : ∀ x ∈ st.acc.getLast?, x.finish ≤ st.time
  hdur : ∀ s ∈ st.acc, s.start ≤ s.finish
  harr : ∀ s ∈ st.acc, ∀ p ∈ ps, p.pid = s.pid → p.arrival ≤ s.start

theorem mlfqGo_inv {ps : List Proc} {baseQ : Int} {nQ nKeys : ℕ}
    (hbq : 1 ≤ baseQ) (hnQ : 1 ≤ nQ) (hkeys : ps.length ≤ nKeys)
    (hnd : (ps.map Proc.pid).Nodup) (hb : ∀ p ∈ ps, 1 ≤ p.burst) :
    ∀ (fuel : ℕ) (st : MlfqState) (tl : List Slice),
      MlfqInv ps nQ st →
      mlfqGo baseQ nQ nKeys fuel st = some tl →
      GoodRun ps tl
  | 0, _, _, _, h => by cases h
  | fuel+1, st, tl, inv, hrun => by
    rw [mlfqGo] at hrun
    by_cases hguard : st.fin.length < nKeys
    · rw [if_pos hguard] at hrun
      simp only [] at hrun
      obtain ⟨q0, rest0, hqe⟩ : ∃ q0 rest0, st.queues = q0 :: rest0 := by
        cases hql : st.queues with
        | nil =>
          exfalso
          have := inv.hqlen
          rw [hql] at this
          simp at this
          omega
        | cons q0 rest0 => exact ⟨q0, rest0, rfl⟩
      set adm := st.procs.takeWhile (fun x => decide (x.arrival ≤ st.time))
        with hadm
      set procs1 := st.procs.dropWhile (fun x => decide (x.arrival ≤ st.time))
        with hprocs1
      have htw : adm ++ procs1 = st.procs :=
        List.takeWhile_append_dropWhile _ _
      have hadmfl : (admitTop st.queues adm).flatten.Perm
          (st.queues.flatten ++ adm) := by
        rw [hqe]
        exact admitTop_flatten adm
      have hadmlen : (admitTop st.queues adm).length = st.queues.length := by
        rw [hqe]
        rfl
      have hready1 : ∀ x ∈ st.queues.flatten ++ adm,
          1 ≤ st.rem x.pid ∧ x.arrival ≤ st.time ∧ x ∈ ps := by
        intro x hx
        rcases List.mem_append.1 hx with hx1 | hx1
        · exact ⟨inv.hremq x hx1, inv.harrq x hx1,
            inv.hsub.subset (List.mem_append.2 (Or.inr hx1))⟩
        · have hxp : x ∈ st.procs := by
            rw [← htw]
            exact List.mem_append.2 (Or.inl hx1)
          have hxps : x ∈ ps := inv.hsub.subset (List.mem_append.2 (Or.inl hxp))
          refine ⟨?_, ?_, hxps⟩
          · rw [inv.hremp x hxp]
            exact hb x hxps
          · have h8 := List.mem_takeWhile_imp hx1
            exact of_decide_eq_true h8
      split at hrun
      next p i qs2 hpop =>
        -- dispatch the head of the first non-empty level
        have hpopfl : (admitTop st.queues adm).flatten = p :: qs2.flatten :=
          popFirst_flatten hpop
        have hpoplen := popFirst_length hpop
        have hQ2len : qs2.length = nQ := by
          rw [hpoplen.1, hadmlen, inv.hqlen]
        have hilt : i < nQ := by
          have := hpoplen.2
          rw [hadmlen, inv.hqlen] at this
          exact this
        have hpermR : (p :: qs2.flatten).Perm (st.queues.flatten ++ adm) := by
          rw [← hpopfl]
          exact hadmfl
        have hperm3 : (st.procs ++ st.queues.flatten).Perm
            (p :: (procs1 ++ qs2.flatten)) := by
          have s1 : (st.procs ++ st.queues.flatten)
              = (adm ++ procs1) ++ st.queues.flatten := by rw [htw]
          have s2 : ((adm ++ procs1) ++ st.queues.flatten).Perm
              (procs1 ++ (st.queues.flatten ++ adm)) := by
            have t1 : ((adm ++ procs1) ++ st.queues.flatten).Perm
                ((procs1 ++ adm) ++ st.queues.flatten) :=
              List.Perm.append_right _ List.perm_append_comm
            have t2 : ((procs1 ++ adm) ++ st.queues.flatten)
                = procs1 ++ (adm ++ st.queues.flatten) :=
              List.append_assoc _ _ _
            have t3 : (procs1 ++ (adm ++ st.queues.flatten)).Perm
                (procs1 ++ (st.queues.flatten ++ adm)) :=
              List.Perm.append_left _ List.perm_append_comm
            exact (t1.trans (t2 ▸ List.Perm.refl _)).trans t3
          have s3 : (procs1 ++ (st.queues.flatten ++ adm)).Perm
              (procs1 ++ (p :: qs2.flatten)) :=
            List.Perm.append_left _ hpermR.symm
          have s4 : (procs1 ++ (p :: qs2.flatten)).Perm
              (p :: (procs1 ++ qs2.flatten)) := List.perm_middle
          exact ((s1 ▸ s2).trans s3).trans s4
        have hndAll : ((st.procs ++ st.queues.flatten).map Proc.pid).Nodup :=
          nodup_of_subperm (subperm_map Proc.pid inv.hsub) hnd
        have hndNew : ((p :: (procs1 ++ qs2.flatten)).map Proc.pid).Nodup :=
          ((hperm3.map Proc.pid).nodup_iff).1 hndAll
        have hdisj : ∀ x ∈ procs1 ++ qs2.flatten, x.pid ≠ p.pid := by
          rw [List.map_cons, List.nodup_cons] at hndNew
          intro x hx hc
          exact hndNew.1 (hc ▸ List.mem_map_of_mem Proc.pid hx)
        have hpfacts := hready1 _ (hpermR.mem_iff.1 (List.mem_cons_self _ _))
        have hpmem : p ∈ ps := hpfacts.2.2
        have hprem : 1 ≤ st.rem p.pid := hpfacts.1
        have hparr : p.arrival ≤ st.time := hpfacts.2.1
        have h2pow : (0 : Int) < 2 ^ i := pow_pos (by norm_num) i
        have hquant : (1 : Int) ≤ baseQ * 2 ^ i := by
          have h9 : (1 : Int) * 1 ≤ baseQ * 2 ^ i :=
            mul_le_mul hbq (by omega) (by norm_num)
              (le_trans zero_le_one hbq)
          simpa using h9
        set e := min (baseQ * 2 ^ i) (st.rem p.pid) with he
        have he1 : 1 ≤ e := le_min hquant hprem
        have hele : e ≤ st.rem p.pid := min_le_right _ _
        have hpnotfin : p.pid ∉ st.fin := by
          intro hc
          have := inv.hfin0 _ hc
          omega
        have hrem_eq' : ∀ p' ∈ ps,
            sumDur (st.acc ++ [⟨p.pid, st.time, st.time + e⟩]) p'.pid
              + updateMap st.rem p.pid (st.rem p.pid - e) p'.pid
              = p'.burst := by
          intro p' hp'
          rw [sumDur_snoc]
          have base := inv.hrem_eq p' hp'
          by_cases hpx : p'.pid = p.pid
          · have h1 : updateMap st.rem p.pid (st.rem p.pid - e) p'.pid
                = st.rem p.pid - e := by
              rw [hpx]
              exact updateMap_self _ _ _
            rw [if_pos hpx.symm, h1, hpx]
            rw [hpx] at base
            simp only
            omega
          · have h1 : updateMap st.rem p.pid (st.rem p.pid - e) p'.pid
                = st.rem p'.pid := updateMap_ne _ hpx
            rw [if_neg (fun hc => hpx hc.symm), h1]
            omega
        have hchain' : List.Chain' Precedes
            (st.acc ++ [⟨p.pid, st.time, st.time + e⟩]) := by
          refine chain'_snoc inv.hchain ?_
          intro x hx
          have := inv.hlast x hx
          simp only [Precedes]
          omega
        have hlast' : ∀ x ∈ (st.acc ++
              [(⟨p.pid, st.time, st.time + e⟩ : Slice)]).getLast?,
            x.finish ≤ st.time + e := by
          intro x hx
          rw [getLast?_snoc] at hx
          simp only [Option.mem_def, Option.some.injEq] at hx
          subst hx
          simp
        have hdur' : ∀ s ∈ st.acc ++ [⟨p.pid, st.time, st.time + e⟩],
            s.start ≤ s.finish := by
          intro s hs1
          rcases List.mem_append.1 hs1 with h | h
          · exact inv.hdur s h
          · simp only [List.mem_singleton] at h
            subst h
            simp only
            omega
        have harr' : ∀ s ∈ st.acc ++ [⟨p.pid, st.time, st.time + e⟩],
            ∀ p' ∈ ps, p'.pid = s.pid → p'.arrival ≤ s.start := by
          intro s hs1 p' hp' hppid
          rcases List.mem_append.1 hs1 with h | h
          · exact inv.harr s h p' hp' hppid
          · simp only [List.mem_singleton] at h
            subst h
            have hpp : p' = p := pid_unique hnd hp' hpmem hppid
            subst hpp
            simp only
            exact hparr
        have hremp' : ∀ x ∈ procs1,
            updateMap st.rem p.pid (st.rem p.pid - e) x.pid = x.burst := by
          intro x hx
          have hxp : x ∈ st.procs := by
            rw [← htw]
            exact List.mem_append.2 (Or.inr hx)
          rw [updateMap_ne _ (hdisj x (List.mem_append.2 (Or.inl hx)))]
          exact inv.hremp x hxp
        have hremq' : ∀ x ∈ qs2.flatten,
            1 ≤ updateMap st.rem p.pid (st.rem p.pid - e) x.pid := by
          intro x hx
          have hxr : x ∈ st.queues.flatten ++ adm :=
            hpermR.mem_iff.1 (List.mem_cons_of_mem _ hx)
          have hxfl : x ∈ procs1 ++ qs2.flatten :=
            List.mem_append.2 (Or.inr hx)
          rw [updateMap_ne _ (hdisj _ hxfl)]
          exact (hready1 x hxr).1
        have harrq' : ∀ x ∈ qs2.flatten, x.arrival ≤ st.time + e := by
          intro x hx
          have hxr : x ∈ st.queues.flatten ++ adm :=
            hpermR.mem_iff.1 (List.mem_cons_of_mem _ hx)
          have := (hready1 x hxr).2.1
          omega
        split at hrun
        next hcomp =>
          -- the dispatched process finished
          have hfin0' : ∀ x ∈ insertNew st.fin p.pid,
              updateMap st.rem p.pid (st.rem p.pid - e) x = 0 := by
            intro x hx
            rcases mem_insertNew hx with rfl | hx1
            · rw [updateMap_self]
              omega
            · have hxne : x ≠ p.pid := fun hc => hpnotfin (hc ▸ hx1)
              rw [updateMap_ne _ hxne]
              exact inv.hfin0 x hx1
          have hfinsub' : insertNew st.fin p.pid ⊆ ps.map Proc.pid := by
            intro x hx
            rcases mem_insertNew hx with rfl | hx1
            · exact List.mem_map_of_mem Proc.pid hpmem
            · exact inv.hfinsub hx1
          refine mlfqGo_inv hbq hnQ hkeys hnd hb fuel _ tl ?_ hrun
          exact
            { hqlen := hQ2len
              hsub := ((List.sublist_cons_self _ _).subperm.trans
                hperm3.symm.subperm).trans inv.hsub
              hrem_eq := hrem_eq'
              hfin0 := hfin0'
              hfinnd := insertNew_nodup inv.hfinnd
              hfinsub := hfinsub'
              hremq := hremq'
              hremp := hremp'
              harrq := harrq'
              hchain := hchain'
              hlast := hlast'
              hdur := hdur'
              harr := harr' }
        next hcomp =>
          -- quantum expiry: demote and continue
          set j := if i + 1 < nQ then i + 1 else i with hj
          have hjlt : j < qs2.length := by
            rw [hQ2len, hj]
            split
            · omega
            · exact hilt
          have henq := @enqueueAt_flatten qs2 j p hjlt
          have hsub'n : (procs1 ++ (enqueueAt qs2 j p).flatten).Subperm ps := by
            have s5 : (procs1 ++ (enqueueAt qs2 j p).flatten).Perm
                (procs1 ++ (p :: qs2.flatten)) := List.Perm.append_left _ henq
            have s6 : (procs1 ++ (p :: qs2.flatten)).Perm
                (p :: (procs1 ++ qs2.flatten)) := List.perm_middle
            exact ((s5.trans s6).trans hperm3.symm).subperm.trans inv.hsub
          have hfin0'n : ∀ x ∈ st.fin,
              updateMap st.rem p.pid (st.rem p.pid - e) x = 0 := by
            intro x hx
            have hxne : x ≠ p.pid := fun hc => hpnotfin (hc ▸ hx)
            rw [updateMap_ne _ hxne]
            exact inv.hfin0 x hx
          have hremq'n : ∀ x ∈ (enqueueAt qs2 j p).flatten,
              1 ≤ updateMap st.rem p.pid (st.rem p.pid - e) x.pid := by
            intro x hx
            rcases List.mem_cons.1 (henq.mem_iff.1 hx) with rfl | hx1
            · rw [updateMap_self]
              omega
            · exact hremq' x hx1
          have harrq'n : ∀ x ∈ (enqueueAt qs2 j p).flatten,
              x.arrival ≤ st.time + e := by
            intro x hx
            rcases List.mem_cons.1 (henq.mem_iff.1 hx) with rfl | hx1
            · omega
            · exact harrq' x hx1
          refine mlfqGo_inv hbq hnQ hkeys hnd hb fuel _ tl ?_ hrun
          exact
            { hqlen := by rw [enqueueAt_length, hQ2len]
              hsub := hsub'n
              hrem_eq := hrem_eq'
              hfin0 := hfin0'n
              hfinnd := inv.hfinnd
              hfinsub := inv.hfinsub
              hremq := hremq'n
              hremp := hremp'
              harrq := harrq'n
              hchain := hchain'
              hlast := hlast'
              hdur := hdur'
              harr := harr' }
      next hpop =>
        -- every level empty: idle
        have hfl : (admitTop st.queues adm).flatten = [] :=
          popFirst_none_flatten hpop
        have hnilboth : st.queues.flatten = [] ∧ adm = [] := by
          have h0 : (st.queues.flatten ++ adm).Perm [] := by
            rw [← hfl]
            exact hadmfl.symm
          have h1 : st.queues.flatten ++ adm = [] := h0.eq_nil
          exact List.append_eq_nil.1 h1
        have hdw : procs1 = st.procs := by
          have h5 := htw
          rw [hnilboth.2] at h5
          simpa using h5
        have hinv2 : ∀ t2 : Int, st.time ≤ t2 →
            MlfqInv ps nQ
              { procs := procs1, queues := admitTop st.queues adm,
                rem := st.rem, fin := st.fin, time := t2, acc := st.acc } := by
          intro t2 ht2
          refine
            { hqlen := by rw [hadmlen, inv.hqlen]
              hsub := ?_
              hrem_eq := inv.hrem_eq
              hfin0 := inv.hfin0
              hfinnd := inv.hfinnd
              hfinsub := inv.hfinsub
              hremq := ?_
              hremp := by
                rw [hdw]
                exact inv.hremp
              harrq := ?_
              hchain := inv.hchain
              hlast := fun x hx => le_trans (inv.hlast x hx) ht2
              hdur := inv.hdur
              harr := inv.harr }
          · show (procs1 ++ (admitTop st.queues adm).flatten).Subperm ps
            rw [hfl, hdw, List.append_nil]
            have h6 := inv.hsub
            rw [hnilboth.1, List.append_nil] at h6
            exact h6
          · show ∀ x ∈ (admitTop st.queues adm).flatten, 1 ≤ st.rem x.pid
            rw [hfl]
            intro x hx
            cases hx
          · show ∀ x ∈ (admitTop st.queues adm).flatten, x.arrival ≤ t2
            rw [hfl]
            intro x hx
            cases hx
        clear_value procs1
        split at hrun
        next q qs hq =>
          refine mlfqGo_inv hbq hnQ hkeys hnd hb fuel _ tl ?_ hrun
          exact hinv2 _ (le_trans (by omega) (le_max_left _ _))
        next =>
          refine mlfqGo_inv hbq hnQ hkeys hnd hb fuel _ tl ?_ hrun
          exact hinv2 (st.time + 1) (by omega)
    · -- all distinct pids are finished: the loop returns the timeline
      rw [if_neg hguard] at hrun
      obtain rfl : st.acc = tl := Option.some.inj hrun
      refine ⟨?_, inv.hchain, inv.hdur, inv.harr⟩
      intro p hp
      have hlen : ps.length ≤ st.fin.length := le_trans hkeys (not_lt.1 hguard)
      have hsp : st.fin.Subperm (ps.map Proc.pid) :=
        List.subperm_of_subset inv.hfinnd inv.hfinsub
      have hperm4 : st.fin.Perm (ps.map Proc.pid) :=
        hsp.perm_of_length_le (by simpa using hlen)
      have hpid : p.pid ∈ st.fin :=
        hperm4.mem_iff.2 (List.mem_map_of_mem Proc.pid hp)
      have h0 := inv.hfin0 _ hpid
      have := inv.hrem_eq p hp
      omega

theorem flatten_replicate_nil :
    ∀ n : ℕ, (List.replicate n ([] : List Proc)).flatten = []
  | 0 => rfl
  | n+1 => by
    simp [List.replicate_succ, List.flatten_cons, flatten_replicate_nil n]

theorem mlfq_goodRun {ps : List Proc} {nQ : ℕ} {baseQ : Int} {fuel : ℕ}
    {tl : List Slice} (hv : ValidInput ps) (hnQ : 1 ≤ nQ) (hbq : 1 ≤ baseQ)
    (h : mlfq ps nQ baseQ fuel = some tl) : GoodRun ps tl := by
  obtain ⟨hne, hnd, hall⟩ := hv
  have hb : ∀ p ∈ ps, 1 ≤ p.burst := fun p hp => (hall p hp).2.2
  have hperm : (sortByArrival ps).Perm ps := List.perm_insertionSort _ ps
  have hndS : ((sortByArrival ps).map Proc.pid).Nodup :=
    (hperm.map _).nodup_iff.2 hnd
  have hkeys : ps.length ≤ ((sortByArrival ps).map Proc.pid).dedup.length := by
    rw [length_dedup_nodup hndS, List.length_map, hperm.length_eq]
  rw [mlfq] at h
  refine mlfqGo_inv hbq hnQ hkeys hnd hb fuel _ tl ?_ h
  refine
    { hqlen := List.length_replicate _ _
      hsub := ?_
      hrem_eq := ?_
      hfin0 := fun x hx => absurd hx (List.not_mem_nil x)
      hfinnd := List.nodup_nil
      hfinsub := fun x hx => absurd hx (List.not_mem_nil x)
      hremq := ?_
      hremp := fun x hx => initRem_eq hndS hx
      harrq := ?_
      hchain := List.chain'_nil
      hlast := by simp
      hdur := by simp
      harr := by simp }
  · show ((sortByArrival ps) ++
      (List.replicate nQ ([] : List Proc)).flatten).Subperm ps
    rw [flatten_replicate_nil, List.append_nil]
    exact hperm.subperm
  · intro p hp
    have h1 := initRem_eq hndS (hperm.mem_iff.2 hp)
    simp [sumDur, h1]
  · show ∀ x ∈ (List.replicate nQ ([] : List Proc)).flatten, _
    rw [flatten_replicate_nil]
    intro x hx
    cases hx
  · show ∀ x ∈ (List.replicate nQ ([] : List Proc)).flatten, _
    rw [flatten_replicate_nil]
    intro x hx
    cases hx

/-! ## Verified properties of `srtf` -/

/-- The running process's not-yet-emitted execution time. -/
def inprogOf (cur : Option Int) (time lastT x : Int) : Int :=
  match cur with
  | some c => if c = x then time - lastT else 0
  | none => 0

/-- The loop invariant of `srtf`: beyond the usual accounting, the
still-open slice of the currently running pid (`[lastT, time)`) is
tracked separately until a boundary closes it. -/
structure SrtfInv (ps : List Proc) (n : ℕ) (st : SrtfState) : Prop where
  hsub : (st.procs ++ st.ready).Subperm ps
  hcomp : st.completed + (st.procs ++ st.ready).length = n
  hrem_eq : ∀ p ∈ ps, sumDur st.acc p.pid
    + inprogOf st.cur st.time st.lastT p.pid + st.rem p.pid = p.burst
  hrem0 : ∀ p ∈ ps, p.pid ∉ (st.procs ++ st.ready).map Proc.pid →
    st.rem p.pid = 0
  hremq : ∀ x ∈ st.ready, 1 ≤ st.rem x.pid
  hremp : ∀ x ∈ st.procs, st.rem x.pid = x.burst
  harrr : ∀ x ∈ st.ready, x.arrival ≤ st.time
  hcura : ∀ c, st.cur = some c → c ∈ st.ready.map Proc.pid
  hcurb : ∀ c, st.cur = some c → st.lastT < st.time
  hcurc : ∀ c, st.cur = some c → ∃ p ∈ ps, p.pid = c ∧ p.arrival ≤ st.lastT
  hchain : List.Chain' Precedes st.acc
  hlastacc : ∀ x ∈ st.acc.getLast?, x.finish ≤
    (match st.cur with | some _ => st.lastT | none => st.time)
  hdur : ∀ s ∈ st.acc, s.start ≤ s.finish
  harr : ∀ s ∈ st.acc, ∀ p ∈ ps, p.pid = s.pid → p.arrival ≤ s.start

theorem srtfGo_inv {ps : List Proc} {n : ℕ}
    (hnd : (ps.map Proc.pid).Nodup) (hb : ∀ p ∈ ps, 1 ≤ p.burst) :
    ∀ (fuel : ℕ) (st : SrtfState) (tl : List Slice),
      SrtfInv ps n st →
      srtfGo n fuel st = some tl →
      GoodRun ps tl
  | 0, _, _, _, h => by cases h
  | fuel+1, st, tl, inv, hrun => by
    rw [srtfGo] at hrun
    by_cases hguard : st.completed < n
    · rw [if_pos hguard] at hrun
      simp only [] at hrun
      split at hrun
      next hs =>
        -- nothing ready: single idle step
        obtain ⟨hrdy, hadm⟩ := List.append_eq_nil.1 hs
        have hdw : st.procs.dropWhile
            (fun x => decide (x.arrival ≤ st.time)) = st.procs := by
          have h5 := List.takeWhile_append_dropWhile
            (p := fun x : Proc => decide (x.arrival ≤ st.time)) (l := st.procs)
          rw [hadm] at h5
          simpa using h5
        have hcn : st.cur = none := by
          cases hcc : st.cur with
          | none => rfl
          | some c =>
            have := inv.hcura c hcc
            rw [hrdy] at this
            cases this
        rw [hdw] at hrun
        refine srtfGo_inv hnd hb fuel _ tl ?_ hrun
        refine
          { hsub := ?_
            hcomp := ?_
            hrem_eq := ?_
            hrem0 := ?_
            hremq := fun x hx => absurd hx (List.not_mem_nil x)
            hremp := inv.hremp
            harrr := fun x hx => absurd hx (List.not_mem_nil x)
            hcura := by
              intro c hcc
              rw [hcn] at hcc
              cases hcc
            hcurb := by
              intro c hcc
              rw [hcn] at hcc
              cases hcc
            hcurc := by
              intro c hcc
              rw [hcn] at hcc
              cases hcc
            hchain := inv.hchain
            hlastacc := ?_
            hdur := inv.hdur
            harr := inv.harr }
        · show (st.procs ++ []).Subperm ps
          rw [List.append_nil]
          have h6 := inv.hsub
          rw [hrdy, List.append_nil] at h6
          exact h6
        · show st.completed + (st.procs ++ []).length = n
          have h6 := inv.hcomp
          rw [hrdy] at h6
          exact h6
        · intro p hp
          have h6 := inv.hrem_eq p hp
          rw [hcn] at h6 ⊢
          simpa [inprogOf] using h6
        · intro p hp hnot
          refine inv.hrem0 p hp ?_
          rw [hrdy, List.append_nil]
          rw [List.append_nil] at hnot
          exact hnot
        · intro x hx
          have h6 := inv.hlastacc x hx
          rw [hcn] at h6 ⊢
          simp only at h6 ⊢
          omega
      next r0 rrest hs =>
        -- one time unit runs for the least (remaining, pid)
        set adm := st.procs.takeWhile (fun x => decide (x.arrival ≤ st.time))
          with hadm
        set procs1 := st.procs.dropWhile (fun x => decide (x.arrival ≤ st.time))
          with hprocs1
        set key := fun x : Proc => toLex (st.rem x.pid, x.pid) with hkey
        have hpermR : ((selectMinBy key r0 rrest).1 ::
            (selectMinBy key r0 rrest).2).Perm (st.ready ++ adm) := by
          have h0 := selectMinBy_perm key rrest r0
          have hveq : (r0 :: rrest) = st.ready ++ adm := hs.symm
          exact hveq ▸ h0
        set p := (selectMinBy key r0 rrest).1 with hp
        set prest := (selectMinBy key r0 rrest).2 with hprest
        have htw : adm ++ procs1 = st.procs :=
          List.takeWhile_append_dropWhile _ _
        have hperm3 : (st.procs ++ st.ready).Perm (p :: (procs1 ++ prest)) := by
          have s1 : (st.procs ++ st.ready)
              = (adm ++ procs1) ++ st.ready := by rw [htw]
          have s2 : ((adm ++ procs1) ++ st.ready).Perm
              (procs1 ++ (st.ready ++ adm)) := by
            have t1 : ((adm ++ procs1) ++ st.ready).Perm
                ((procs1 ++ adm) ++ st.ready) :=
              List.Perm.append_right _ List.perm_append_comm
            have t2 : ((procs1 ++ adm) ++ st.ready)
                = procs1 ++ (adm ++ st.ready) := List.append_assoc _ _ _
            have t3 : (procs1 ++ (adm ++ st.ready)).Perm
                (procs1 ++ (st.ready ++ adm)) :=
              List.Perm.append_left _ List.perm_append_comm
            exact (t1.trans (t2 ▸ List.Perm.refl _)).trans t3
          have s3 : (procs1 ++ (st.ready ++ adm)).Perm
              (procs1 ++ (p :: prest)) := List.Perm.append_left _ hpermR.symm
          have s4 : (procs1 ++ (p :: prest)).Perm (p :: (procs1 ++ prest)) :=
            List.perm_middle
          exact ((s1 ▸ s2).trans s3).trans s4
        have hndAll : ((st.procs ++ st.ready).map Proc.pid).Nodup :=
          nodup_of_subperm (subperm_map Proc.pid inv.hsub) hnd
        have hndNew : ((p :: (procs1 ++ prest)).map Proc.pid).Nodup :=
          ((hperm3.map Proc.pid).nodup_iff).1 hndAll
        have hdisj : ∀ x ∈ procs1 ++ prest, x.pid ≠ p.pid := by
          rw [List.map_cons, List.nodup_cons] at hndNew
          intro x hx hc
          exact hndNew.1 (hc ▸ List.mem_map_of_mem Proc.pid hx)
        have hready1 : ∀ x ∈ st.ready ++ adm,
            1 ≤ st.rem x.pid ∧ x.arrival ≤ st.time ∧ x ∈ ps := by
          intro x hx
          rcases List.mem_append.1 hx with hx1 | hx1
          · exact ⟨inv.hremq x hx1, inv.harrr x hx1,
              inv.hsub.subset (List.mem_append.2 (Or.inr hx1))⟩
          · have hxp : x ∈ st.procs := by
              rw [← htw]
              exact List.mem_append.2 (Or.inl hx1)
            have hxps : x ∈ ps :=
              inv.hsub.subset (List.mem_append.2 (Or.inl hxp))
            refine ⟨?_, ?_, hxps⟩
            · rw [inv.hremp x hxp]
              exact hb x hxps
            · have h8 := List.mem_takeWhile_imp hx1
              exact of_decide_eq_true h8
        have hpfacts := hready1 _ (hpermR.mem_iff.1 (List.mem_cons_self _ _))
        have hpmem : p ∈ ps := hpfacts.2.2
        have hprem : 1 ≤ st.rem p.pid := hpfacts.1
        have hparr : p.arrival ≤ st.time := hpfacts.2.1
        have hcompN : st.completed + ((procs1 ++ prest).length + 1) = n := by
          have h7 := hperm3.length_eq
          have h8 := inv.hcomp
          simp only [List.length_cons] at h7
          omega
        have hsubC : (procs1 ++ prest).Subperm ps :=
          ((List.sublist_cons_self _ _).subperm.trans
            hperm3.symm.subperm).trans inv.hsub
        have hpermN : (procs1 ++ (prest ++ [p])).Perm
            (st.procs ++ st.ready) := by
          have s5 : (procs1 ++ (prest ++ [p]))
              = (procs1 ++ prest) ++ [p] := (List.append_assoc _ _ _).symm
          have s6 : ((procs1 ++ prest) ++ [p]).Perm
              (p :: (procs1 ++ prest)) := List.perm_append_comm
          exact (s5 ▸ s6).trans hperm3.symm
        have hremqC : ∀ x ∈ prest,
            1 ≤ updateMap st.rem p.pid (st.rem p.pid - 1) x.pid := by
          intro x hx
          have hxr := hready1 _ (hpermR.mem_iff.1 (List.mem_cons_of_mem _ hx))
          rw [updateMap_ne _ (hdisj x (List.mem_append.2 (Or.inr hx)))]
          exact hxr.1
        have harrrC : ∀ x ∈ prest, x.arrival ≤ st.time + 1 := by
          intro x hx
          have hxr := hready1 _ (hpermR.mem_iff.1 (List.mem_cons_of_mem _ hx))
          have := hxr.2.1
          omega
        have hremp1 : ∀ x ∈ procs1,
            updateMap st.rem p.pid (st.rem p.pid - 1) x.pid = x.burst := by
          intro x hx
          have hxp : x ∈ st.procs := by
            rw [← htw]
            exact List.mem_append.2 (Or.inr hx)
          rw [updateMap_ne _ (hdisj x (List.mem_append.2 (Or.inl hx)))]
          exact inv.hremp x hxp
        have haccpost : ∀ (acc1 : List Slice) (lt1 : Int),
            List.Chain' Precedes acc1 →
            (∀ x ∈ acc1.getLast?, x.finish ≤ lt1) →
            (∀ s ∈ acc1, s.start ≤ s.finish) →
            (∀ s ∈ acc1, ∀ p' ∈ ps, p'.pid = s.pid → p'.arrival ≤ s.start) →
            lt1 ≤ st.time →
            (∀ p' ∈ ps, p'.pid = p.pid → p'.arrival ≤ lt1) →
            List.Chain' Precedes (acc1 ++ [⟨p.pid, lt1, st.time + 1⟩]) ∧
            (∀ x ∈ (acc1 ++ [(⟨p.pid, lt1, st.time + 1⟩ : Slice)]).getLast?,
              x.finish ≤ st.time + 1) ∧
            (∀ s ∈ acc1 ++ [(⟨p.pid, lt1, st.time + 1⟩ : Slice)],
              s.start ≤ s.finish) ∧
            (∀ s ∈ acc1 ++ [(⟨p.pid, lt1, st.time + 1⟩ : Slice)],
              ∀ p' ∈ ps, p'.pid = s.pid → p'.arrival ≤ s.start) := by
          intro acc1 lt1 hc1 hl1 hd1 ha1 hlt1 harr1
          refine ⟨?_, ?_, ?_, ?_⟩
          · refine chain'_snoc hc1 ?_
            intro x hx
            have := hl1 x hx
            simp only [Precedes]
            omega
          · intro x hx
            rw [getLast?_snoc] at hx
            simp only [Option.mem_def, Option.some.injEq] at hx
            subst hx
            simp
          · intro s hs1
            rcases List.mem_append.1 hs1 with h | h
            · exact hd1 s h
            · simp only [List.mem_singleton] at h
              subst h
              simp only
              omega
          · intro s hs1 p' hp' hppid
            rcases List.mem_append.1 hs1 with h | h
            · exact ha1 s h p' hp' hppid
            · simp only [List.mem_singleton] at h
              subst h
              exact harr1 p' hp' hppid
        have harrp : ∀ p' ∈ ps, p'.pid = p.pid → p'.arrival ≤ st.time := by
          intro p' hp' hppid
          have : p' = p := pid_unique hnd hp' hpmem hppid
          subst this
          exact hparr
        rcases hcc : st.cur with _ | c
        all_goals rw [hcc] at hrun
        all_goals simp only [] at hrun
        · -- no process was running
          split at hrun
          next hz =>
            refine srtfGo_inv hnd hb fuel _ tl ?_ hrun
            have hpost := haccpost st.acc st.time inv.hchain
              (by
                intro x hx
                have := inv.hlastacc x hx
                rw [hcc] at this
                simpa using this)
              inv.hdur inv.harr le_rfl harrp
            refine
              { hsub := hsubC
                hcomp := by
                  show st.completed + 1 + (procs1 ++ prest).length = n
                  omega
                hrem_eq := ?_
                hrem0 := ?_
                hremq := hremqC
                hremp := hremp1
                harrr := harrrC
                hcura := by
                  intro c2 hc2
                  simp only at hc2
                  cases hc2
                hcurb := by
                  intro c2 hc2
                  simp only at hc2
                  cases hc2
                hcurc := by
                  intro c2 hc2
                  simp only at hc2
                  cases hc2
                hchain := hpost.1
                hlastacc := by
                  intro x hx
                  have := hpost.2.1 x hx
                  simpa using this
                hdur := hpost.2.2.1
                harr := hpost.2.2.2 }
            · intro p' hp'
              have base := inv.hrem_eq p' hp'
              rw [hcc] at base
              simp only
              simp only [inprogOf] at base ⊢
              rw [sumDur_snoc]
              by_cases hpx : p'.pid = p.pid
              · have h1 : updateMap st.rem p.pid (st.rem p.pid - 1) p'.pid
                    = st.rem p.pid - 1 := by
                  rw [hpx]
                  exact updateMap_self _ _ _
                rw [if_pos hpx.symm, h1, hpx]
                rw [hpx] at base
                simp only
                omega
              · have h1 : updateMap st.rem p.pid (st.rem p.pid - 1) p'.pid
                    = st.rem p'.pid := updateMap_ne _ hpx
                rw [if_neg (fun hc2 => hpx hc2.symm), h1]
                omega
            · intro p' hp' hnot
              simp only
              by_cases hpx : p'.pid = p.pid
              · rw [hpx, updateMap_self]
                omega
              · rw [updateMap_ne _ hpx]
                refine inv.hrem0 p' hp' ?_
                intro hmem
                apply hnot
                have h9 := ((hperm3.map Proc.pid).mem_iff).1 hmem
                rcases List.mem_cons.1 h9 with h10 | h10
                · exact absurd h10 hpx
                · exact h10
          next hz =>
            refine srtfGo_inv hnd hb fuel _ tl ?_ hrun
            have hrge : 1 ≤ st.rem p.pid - 1 := by omega
            refine
              { hsub := hpermN.subperm.trans inv.hsub
                hcomp := by
                  show st.completed + (procs1 ++ (prest ++ [p])).length = n
                  have h7 := hpermN.length_eq
                  have h8 := inv.hcomp
                  omega
                hrem_eq := ?_
                hrem0 := ?_
                hremq := ?_
                hremp := hremp1
                harrr := ?_
                hcura := by
                  intro c2 hc2
                  have : c2 = p.pid := by
                    have := Option.some.inj hc2
                    omega
                  subst this
                  simp
                hcurb := by
                  intro c2 hc2
                  show st.time < st.time + 1
                  omega
                hcurc := by
                  intro c2 hc2
                  have : c2 = p.pid := by
                    have := Option.some.inj hc2
                    omega
                  subst this
                  exact ⟨p, hpmem, rfl, hparr⟩
                hchain := inv.hchain
                hlastacc := ?_
                hdur := inv.hdur
                harr := inv.harr }
            · intro p' hp'
              have base := inv.hrem_eq p' hp'
              rw [hcc] at base
              simp only
              simp only [inprogOf] at base ⊢
              by_cases hpx : p.pid = p'.pid
              · have h1 : updateMap st.rem p.pid (st.rem p.pid - 1) p'.pid
                    = st.rem p.pid - 1 := by
                  rw [← hpx]
                  exact updateMap_self _ _ _
                rw [if_pos hpx, h1, ← hpx]
                rw [← hpx] at base
                omega
              · have h1 : updateMap st.rem p.pid (st.rem p.pid - 1) p'.pid
                    = st.rem p'.pid := updateMap_ne _ (fun hc2 => hpx hc2.symm)
                rw [if_neg hpx, h1]
                omega
            · intro p' hp' hnot
              simp only
              by_cases hpx : p'.pid = p.pid
              · exfalso
                apply hnot
                rw [hpx]
                refine List.mem_map_of_mem Proc.pid ?_
                exact List.mem_append.2 (Or.inr (List.mem_append.2
                  (Or.inr (List.mem_singleton.2 rfl))))
              · rw [updateMap_ne _ hpx]
                refine inv.hrem0 p' hp' ?_
                intro hmem
                exact hnot (((hpermN.map Proc.pid).mem_iff).2 hmem)
            · intro x hx
              rcases List.mem_append.1 hx with hx1 | hx1
              · exact hremqC x hx1
              · simp only [List.mem_singleton] at hx1
                subst hx1
                simp only
                rw [updateMap_self]
                exact hrge
            · intro x hx
              rcases List.mem_append.1 hx with hx1 | hx1
              · exact harrrC x hx1
              · simp only [List.mem_singleton] at hx1
                subst hx1
                show p.arrival ≤ st.time + 1
                omega
            · intro x hx
              have := inv.hlastacc x hx
              rw [hcc] at this
              simp only at this ⊢
              omega
        · -- a process was running: c
          have hltc : st.lastT < st.time := inv.hcurb c hcc
          obtain ⟨pc, hpcmem, hpcpid, hpcarr⟩ := inv.hcurc c hcc
          by_cases hcp : c = p.pid
          · -- same pid keeps running: no boundary
            simp only [if_pos hcp] at hrun
            split at hrun
            next hz =>
              refine srtfGo_inv hnd hb fuel _ tl ?_ hrun
              have hpost := haccpost st.acc st.lastT inv.hchain
                (by
                  intro x hx
                  have := inv.hlastacc x hx
                  rw [hcc] at this
                  simpa using this)
                inv.hdur inv.harr (le_of_lt hltc)
                (by
                  intro p' hp' hppid
                  have : p' = pc := pid_unique hnd hp' hpcmem
                    (by rw [hppid, ← hcp, hpcpid])
                  subst this
                  exact hpcarr)
              refine
                { hsub := hsubC
                  hcomp := by
                    show st.completed + 1 + (procs1 ++ prest).length = n
                    omega
                  hrem_eq := ?_
                  hrem0 := ?_
                  hremq := hremqC
                  hremp := hremp1
                  harrr := harrrC
                  hcura := by
                    intro c2 hc2
                    simp only at hc2
                    cases hc2
                  hcurb := by
                    intro c2 hc2
                    simp only at hc2
                    cases hc2
                  hcurc := by
                    intro c2 hc2
                    simp only at hc2
                    cases hc2
                  hchain := hpost.1
                  hlastacc := by
                    intro x hx
                    have := hpost.2.1 x hx
                    simpa using this
                  hdur := hpost.2.2.1
                  harr := hpost.2.2.2 }
              · intro p' hp'
                have base := inv.hrem_eq p' hp'
                rw [hcc] at base
                simp only
                simp only [inprogOf] at base ⊢
                rw [sumDur_snoc]
                by_cases hpx : p'.pid = p.pid
                · have h1 : updateMap st.rem p.pid (st.rem p.pid - 1) p'.pid
                      = st.rem p.pid - 1 := by
                    rw [hpx]
                    exact updateMap_self _ _ _
                  rw [if_pos hpx.symm, h1, hpx]
                  rw [if_pos (by omega : c = p'.pid)] at base
                  rw [hpx] at base
                  simp only
                  omega
                · have h1 : updateMap st.rem p.pid (st.rem p.pid - 1) p'.pid
                      = st.rem p'.pid := updateMap_ne _ hpx
                  rw [if_neg (fun hc2 => hpx hc2.symm), h1]
                  rw [if_neg (by omega : ¬ c = p'.pid)] at base
                  omega
              · intro p' hp' hnot
                simp only
                by_cases hpx : p'.pid = p.pid
                · rw [hpx, updateMap_self]
                  omega
                · rw [updateMap_ne _ hpx]
                  refine inv.hrem0 p' hp' ?_
                  intro hmem
                  apply hnot
                  have h9 := ((hperm3.map Proc.pid).mem_iff).1 hmem
                  rcases List.mem_cons.1 h9 with h10 | h10
                  · exact absurd h10 hpx
                  · exact h10
            next hz =>
              refine srtfGo_inv hnd hb fuel _ tl ?_ hrun
              have hrge : 1 ≤ st.rem p.pid - 1 := by omega
              refine
                { hsub := hpermN.subperm.trans inv.hsub
                  hcomp := by
                    show st.completed + (procs1 ++ (prest ++ [p])).length = n
                    have h7 := hpermN.length_eq
                    have h8 := inv.hcomp
                    omega
                  hrem_eq := ?_
                  hrem0 := ?_
                  hremq := ?_
                  hremp := hremp1
                  harrr := ?_
                  hcura := by
                    intro c2 hc2
                    have : c2 = p.pid := by
                      have := Option.some.inj hc2
                      omega
                    subst this
                    simp
                  hcurb := by
                    intro c2 hc2
                    show st.lastT < st.time + 1
                    omega
                  hcurc := by
                    intro c2 hc2
                    have : c2 = p.pid := by
                      have := Option.some.inj hc2
                      omega
                    subst this
                    refine ⟨pc, hpcmem, by rw [hpcpid, hcp], hpcarr⟩
                  hchain := inv.hchain
                  hlastacc := ?_
                  hdur := inv.hdur
                  harr := inv.harr }
              · intro p' hp'
                have base := inv.hrem_eq p' hp'
                rw [hcc] at base
                simp only
                simp only [inprogOf] at base ⊢
                by_cases hpx : p.pid = p'.pid
                · have h1 : updateMap st.rem p.pid (st.rem p.pid - 1) p'.pid
                      = st.rem p.pid - 1 := by
                    rw [← hpx]
                    exact updateMap_self _ _ _
                  rw [if_pos hpx, h1, ← hpx]
                  rw [if_pos (by omega : c = p'.pid)] at base
                  rw [← hpx] at base
                  omega
                · have h1 : updateMap st.rem p.pid (st.rem p.pid - 1) p'.pid
                      = st.rem p'.pid :=
                    updateMap_ne _ (fun hc2 => hpx hc2.symm)
                  rw [if_neg hpx, h1]
                  rw [if_neg (by omega : ¬ c = p'.pid)] at base
                  omega
              · intro p' hp' hnot
                simp only
                by_cases hpx : p'.pid = p.pid
                · exfalso
                  apply hnot
                  rw [hpx]
                  refine List.mem_map_of_mem Proc.pid ?_
                  exact List.mem_append.2 (Or.inr (List.mem_append.2
                    (Or.inr (List.mem_singleton.2 rfl))))
                · rw [updateMap_ne _ hpx]
                  refine inv.hrem0 p' hp' ?_
                  intro hmem
                  exact hnot (((hpermN.map Proc.pid).mem_iff).2 hmem)
              · intro x hx
                rcases List.mem_append.1 hx with hx1 | hx1
                · exact hremqC x hx1
                · simp only [List.mem_singleton] at hx1
                  subst hx1
                  simp only
                  rw [updateMap_self]
                  exact hrge
              · intro x hx
                rcases List.mem_append.1 hx with hx1 | hx1
                · exact harrrC x hx1
                · simp only [List.mem_singleton] at hx1
                  subst hx1
                  show p.arrival ≤ st.time + 1
                  omega
              · intro x hx
                have := inv.hlastacc x hx
                rw [hcc] at this
                simp only at this ⊢
                omega
          · -- preemption boundary: flush the open slice of c
            simp only [if_neg hcp, if_pos hltc] at hrun
            have hbchain : List.Chain' Precedes
                (st.acc ++ [⟨c, st.lastT, st.time⟩]) := by
              refine chain'_snoc inv.hchain ?_
              intro x hx
              have h9 := inv.hlastacc x hx
              rw [hcc] at h9
              simp only [Precedes] at h9 ⊢
              omega
            have hblast : ∀ x ∈ (st.acc ++
                  [(⟨c, st.lastT, st.time⟩ : Slice)]).getLast?,
                x.finish ≤ st.time := by
              intro x hx
              rw [getLast?_snoc] at hx
              simp only [Option.mem_def, Option.some.injEq] at hx
              subst hx
              simp
            have hbdur : ∀ s ∈ st.acc ++ [(⟨c, st.lastT, st.time⟩ : Slice)],
                s.start ≤ s.finish := by
              intro s hs1
              rcases List.mem_append.1 hs1 with h | h
              · exact inv.hdur s h
              · simp only [List.mem_singleton] at h
                subst h
                simp only
                omega
            have hbarr : ∀ s ∈ st.acc ++ [(⟨c, st.lastT, st.time⟩ : Slice)],
                ∀ p' ∈ ps, p'.pid = s.pid → p'.arrival ≤ s.start := by
              intro s hs1 p' hp' hppid
              rcases List.mem_append.1 hs1 with h | h
              · exact inv.harr s h p' hp' hppid
              · simp only [List.mem_singleton] at h
                subst h
                have hps : p' = pc := by
                  refine pid_unique hnd hp' hpcmem ?_
                  rw [hppid, hpcpid]
                subst hps
                exact hpcarr
            have hbsum : ∀ x : Int,
                sumDur (st.acc ++ [⟨c, st.lastT, st.time⟩]) x
                  = sumDur st.acc x
                    + (if c = x then st.time - st.lastT else 0) := by
              intro x
              rw [sumDur_snoc]
            split at hrun
            next hz =>
              refine srtfGo_inv hnd hb fuel _ tl ?_ hrun
              have hpost := haccpost (st.acc ++ [⟨c, st.lastT, st.time⟩])
                st.time hbchain hblast hbdur hbarr le_rfl harrp
              refine
                { hsub := hsubC
                  hcomp := by
                    show st.completed + 1 + (procs1 ++ prest).length = n
                    omega
                  hrem_eq := ?_
                  hrem0 := ?_
                  hremq := hremqC
                  hremp := hremp1
                  harrr := harrrC
                  hcura := by
                    intro c2 hc2
                    simp only at hc2
                    cases hc2
                  hcurb := by
                    intro c2 hc2
                    simp only at hc2
                    cases hc2
                  hcurc := by
                    intro c2 hc2
                    simp only at hc2
                    cases hc2
                  hchain := hpost.1
                  hlastacc := by
                    intro x hx
                    have h9 := hpost.2.1 x hx
                    simpa using h9
                  hdur := hpost.2.2.1
                  harr := hpost.2.2.2 }
              · intro p' hp'
                have base := inv.hrem_eq p' hp'
                rw [hcc] at base
                simp only
                simp only [inprogOf] at base ⊢
                rw [sumDur_snoc, hbsum]
                by_cases hpx : p'.pid = p.pid
                · have h1 : updateMap st.rem p.pid (st.rem p.pid - 1) p'.pid
                      = st.rem p.pid - 1 := by
                    rw [hpx]
                    exact updateMap_self _ _ _
                  have hcx : ¬ c = p'.pid := by omega
                  rw [if_pos hpx.symm, if_neg hcx, h1, hpx]
                  rw [if_neg hcx] at base
                  rw [hpx] at base
                  simp only
                  omega
                · have h1 : updateMap st.rem p.pid (st.rem p.pid - 1) p'.pid
                      = st.rem p'.pid := updateMap_ne _ hpx
                  rw [if_neg (show ¬ p.pid = p'.pid from
                    fun hc2 => hpx hc2.symm), h1]
                  by_cases hcx : c = p'.pid
                  · rw [if_pos hcx] at base ⊢
                    omega
                  · rw [if_neg hcx] at base ⊢
                    omega
              · intro p' hp' hnot
                simp only
                by_cases hpx : p'.pid = p.pid
                · rw [hpx, updateMap_self]
                  omega
                · rw [updateMap_ne _ hpx]
                  refine inv.hrem0 p' hp' ?_
                  intro hmem
                  apply hnot
                  have h9 := ((hperm3.map Proc.pid).mem_iff).1 hmem
                  rcases List.mem_cons.1 h9 with h10 | h10
                  · exact absurd h10 hpx
                  · exact h10
            next hz =>
              refine srtfGo_inv hnd hb fuel _ tl ?_ hrun
              have hrge : 1 ≤ st.rem p.pid - 1 := by omega
              refine
                { hsub := hpermN.subperm.trans inv.hsub
                  hcomp := by
                    show st.completed + (procs1 ++ (prest ++ [p])).length = n
                    have h7 := hpermN.length_eq
                    have h8 := inv.hcomp
                    omega
                  hrem_eq := ?_
                  hrem0 := ?_
                  hremq := ?_
                  hremp := hremp1
                  harrr := ?_
                  hcura := by
                    intro c2 hc2
                    have hc3 : p.pid = c2 := Option.some.inj hc2
                    rw [← hc3]
                    simp
                  hcurb := by
                    intro c2 hc2
                    show st.time < st.time + 1
                    omega
                  hcurc := by
                    intro c2 hc2
                    have hc3 : p.pid = c2 := Option.some.inj hc2
                    rw [← hc3]
                    exact ⟨p, hpmem, rfl, hparr⟩
                  hchain := hbchain
                  hlastacc := by
                    intro x hx
                    have h9 := hblast x hx
                    simpa using h9
                  hdur := hbdur
                  harr := hbarr }
              · intro p' hp'
                have base := inv.hrem_eq p' hp'
                rw [hcc] at base
                simp only
                simp only [inprogOf] at base ⊢
                rw [hbsum]
                by_cases hpx : p.pid = p'.pid
                · have h1 : updateMap st.rem p.pid (st.rem p.pid - 1) p'.pid
                      = st.rem p.pid - 1 := by
                    rw [← hpx]
                    exact updateMap_self _ _ _
                  have hcx : ¬ c = p'.pid := by omega
                  rw [if_pos hpx, if_neg hcx, h1, ← hpx]
                  rw [if_neg hcx] at base
                  rw [← hpx] at base
                  omega
                · have h1 : updateMap st.rem p.pid (st.rem p.pid - 1) p'.pid
                      = st.rem p'.pid :=
                    updateMap_ne _ (fun hc2 => hpx hc2.symm)
                  rw [if_neg hpx, h1]
                  by_cases hcx : c = p'.pid
                  · rw [if_pos hcx] at base ⊢
                    omega
                  · rw [if_neg hcx] at base ⊢
                    omega
              · intro p' hp' hnot
                simp only
                by_cases hpx : p'.pid = p.pid
                · exfalso
                  apply hnot
                  rw [hpx]
                  refine List.mem_map_of_mem Proc.pid ?_
                  exact List.mem_append.2 (Or.inr (List.mem_append.2
                    (Or.inr (List.mem_singleton.2 rfl))))
                · rw [updateMap_ne _ hpx]
                  refine inv.hrem0 p' hp' ?_
                  intro hmem
                  exact hnot (((hpermN.map Proc.pid).mem_iff).2 hmem)
              · intro x hx
                rcases List.mem_append.1 hx with hx1 | hx1
                · exact hremqC x hx1
                · simp only [List.mem_singleton] at hx1
                  subst hx1
                  simp only
                  rw [updateMap_self]
                  exact hrge
              · intro x hx
                rcases List.mem_append.1 hx with hx1 | hx1
                · exact harrrC x hx1
                · simp only [List.mem_singleton] at hx1
                  subst hx1
                  show p.arrival ≤ st.time + 1
                  omega
    · rw [if_neg hguard] at hrun
      obtain rfl : st.acc = tl := Option.some.inj hrun
      have hlen0 : (st.procs ++ st.ready).length = 0 := by
        have := inv.hcomp
        omega
      have hnil : st.procs = [] ∧ st.ready = [] := by
        rw [List.length_append] at hlen0
        constructor
        · exact List.length_eq_zero.1 (by omega)
        · exact List.length_eq_zero.1 (by omega)
      have hcn : st.cur = none := by
        cases hcc : st.cur with
        | none => rfl
        | some c =>
          have := inv.hcura c hcc
          rw [hnil.2] at this
          cases this
      refine ⟨?_, inv.hchain, inv.hdur, inv.harr⟩
      intro p hp
      have h0 : st.rem p.pid = 0 := by
        refine inv.hrem0 p hp ?_
        rw [hnil.1, hnil.2]
        simp
      have h6 := inv.hrem_eq p hp
      rw [hcn] at h6
      simp only [inprogOf] at h6
      omega

theorem srtf_goodRun {ps : List Proc} {fuel : ℕ} {tl : List Slice}
    (hv : ValidInput ps) (h : srtf ps fuel = some tl) : GoodRun ps tl := by
  obtain ⟨hne, hnd, hall⟩ := hv
  have hb : ∀ p ∈ ps, 1 ≤ p.burst := fun p hp => (hall p hp).2.2
  have hperm : (sortByArrival ps).Perm ps := List.perm_insertionSort _ ps
  have hndS : ((sortByArrival ps).map Proc.pid).Nodup :=
    (hperm.map Proc.pid).nodup_iff.2 hnd
  rw [srtf] at h
  refine srtfGo_inv hnd hb fuel _ tl ?_ h
  refine
    { hsub := by
        show ((sortByArrival ps) ++ []).Subperm ps
        rw [List.append_nil]
        exact hperm.subperm
      hcomp := by
        show 0 + ((sortByArrival ps) ++ []).length = (sortByArrival ps).length
        simp
      hrem_eq := ?_
      hrem0 := ?_
      hremq := fun x hx => absurd hx (List.not_mem_nil x)
      hremp := fun x hx => initRem_eq hndS hx
      harrr := fun x hx => absurd hx (List.not_mem_nil x)
      hcura := by
        intro c hc
        simp only at hc
        cases hc
      hcurb := by
        intro c hc
        simp only at hc
        cases hc
      hcurc := by
        intro c hc
        simp only at hc
        cases hc
      hchain := List.chain'_nil
      hlastacc := by simp
      hdur := by simp
      harr := by simp }
  · intro p hp
    have h1 := initRem_eq hndS (hperm.mem_iff.2 hp)
    simp [sumDur, inprogOf, h1]
  · intro p hp hnot
    exfalso
    apply hnot
    show p.pid ∈ ((sortByArrival ps) ++ []).map Proc.pid
    rw [List.append_nil]
    exact List.mem_map_of_mem Proc.pid (hperm.mem_iff.2 hp)

/-! ## The policy-indexed interface -/

/-- The eight scheduling policies of `src/algorithms.py`, carrying their
parameters. -/
inductive Policy
  | fcfsP
  | sjfP
  | srtfP
  | rrP (quantum : Int)
  | prioP
  | agingP (aging_interval aging_delta : Int)
  | cfsP (time_slice : Int)
  | mlfqP (queues : ℕ) (base_quantum : Int)

/-- Run a policy.  `fcfs` has no unbounded loop and ignores the fuel. -/
def Policy.run : Policy → List Proc → ℕ → Option (List Slice)
  | .fcfsP, ps, _ => some (fcfs ps)
  | .sjfP, ps, fuel => sjf ps fuel
  | .srtfP, ps, fuel => srtf ps fuel
  | .rrP q, ps, fuel => round_robin ps q fuel
  | .prioP, ps, fuel => priority_scheduling ps fuel
  | .agingP ai ad, ps, fuel => priority_scheduling_with_aging ps ai ad fuel
  | .cfsP ts, ps, fuel => cfs ps ts fuel
  | .mlfqP nQ bq, ps, fuel => mlfq ps nQ bq fuel

/-- The specification's parameter validity: positive quantum, positive
aging interval and delta, positive time slice, at least one queue level
and a positive base quantum. -/
def Policy.Valid : Policy → Prop
  | .rrP q => 1 ≤ q
  | .agingP ai ad => 1 ≤ ai ∧ 1 ≤ ad
  | .cfsP ts => 1 ≤ ts
  | .mlfqP nQ bq => 1 ≤ nQ ∧ 1 ≤ bq
  | _ => True

instance : DecidablePred Policy.Valid := fun po => by
  cases po <;> (unfold Policy.Valid; infer_instance)

theorem policy_goodRun {po : Policy} {ps : List Proc} {fuel : ℕ}
    {tl : List Slice} (hv : ValidInput ps) (hpar : po.Valid)
    (h : po.run ps fuel = some tl) : GoodRun ps tl := by
  cases po with
  | fcfsP =>
    obtain rfl : fcfs ps = tl := Option.some.inj h
    exact fcfs_goodRun hv
  | sjfP => exact sjf_goodRun hv h
  | srtfP => exact srtf_goodRun hv h
  | rrP q => exact rr_goodRun hv hpar h
  | prioP => exact prio_goodRun hv h
  | agingP ai ad => exact aging_goodRun hv h
  | cfsP ts => exact cfs_goodRun hv hpar h
  | mlfqP nQ bq => exact mlfq_goodRun hv hpar.1 hpar.2 h

/-- C1: for every policy, valid input and valid parameters, whenever the
simulation loop terminates with timeline `tl`, the slice durations of
each process's pid sum to its burst. -/
theorem claim_C1 (po : Policy) (ps : List Proc) (fuel : ℕ) (tl : List Slice)
    (hv : ValidInput ps) (hpar : po.Valid) (h : po.run ps fuel = some tl) :
    ∀ p ∈ ps, sumDur tl p.pid = p.burst :=
  (policy_goodRun hv hpar h).1

/-- Witness for C1: round robin with quantum 2 on the specification's
example workload. -/
theorem claim_C1_witness :
    ValidInput [⟨1, 0, 5, 1⟩, ⟨2, 1, 3, 1⟩, ⟨3, 2, 1, 1⟩] ∧
    (∀ p ∈ ([⟨1, 0, 5, 1⟩, ⟨2, 1, 3, 1⟩, ⟨3, 2, 1, 1⟩] : List Proc),
      sumDur [⟨1, 0, 2⟩, ⟨2, 2, 4⟩, ⟨3, 4, 5⟩, ⟨1, 5, 7⟩, ⟨2, 7, 8⟩,
        ⟨1, 8, 9⟩] p.pid = p.burst) :=
  ⟨by decide,
   claim_C1 (.rrP 2) [⟨1, 0, 5, 1⟩, ⟨2, 1, 3, 1⟩, ⟨3, 2, 1, 1⟩] 100 _
     (by decide) (by decide) (by decide)⟩

/-- C2: for every policy, valid input and valid parameters, the returned
timeline, sorted by slice start, is non-overlapping:
`start[i+1] ≥ finish[i]` for adjacent slices. -/
theorem claim_C2 (po : Policy) (ps : List Proc) (fuel : ℕ) (tl : List Slice)
    (hv : ValidInput ps) (hpar : po.Valid) (h : po.run ps fuel = some tl) :
    List.Chain' (fun a b => a.finish ≤ b.start) (sortTimelineByStart tl) := by
  obtain ⟨hsum, hchain, hdur, harr⟩ := policy_goodRun hv hpar h
  rw [sortTimelineByStart_eq hchain hdur]
  exact hchain

/-- Witness for C2: `srtf` on the example workload (exercising
preemption boundaries). -/
theorem claim_C2_witness :
    ValidInput [⟨1, 0, 5, 1⟩, ⟨2, 1, 3, 1⟩, ⟨3, 2, 1, 1⟩] ∧
    List.Chain' (fun a b => a.finish ≤ b.start)
      (sortTimelineByStart [⟨1, 0, 1⟩, ⟨2, 1, 2⟩, ⟨3, 2, 3⟩, ⟨2, 3, 5⟩,
        ⟨1, 5, 9⟩]) :=
  ⟨by decide,
   claim_C2 .srtfP [⟨1, 0, 5, 1⟩, ⟨2, 1, 3, 1⟩, ⟨3, 2, 1, 1⟩] 100 _
     (by decide) trivial (by decide)⟩

/-- C8: for every policy, valid input and valid parameters, every
emitted slice starts no earlier than its process's arrival. -/
theorem claim_C8 (po : Policy) (ps : List Proc) (fuel : ℕ) (tl : List Slice)
    (hv : ValidInput ps) (hpar : po.Valid) (h : po.run ps fuel = some tl) :
    ∀ s ∈ tl, ∀ p ∈ ps, p.pid = s.pid → p.arrival ≤ s.start :=
  (policy_goodRun hv hpar h).2.2.2

/-- Witness for C8: `mlfq` with 3 levels and base quantum 2 on the
example workload. -/
theorem claim_C8_witness :
    ValidInput [⟨1, 0, 5, 1⟩, ⟨2, 1, 3, 1⟩, ⟨3, 2, 1, 1⟩] ∧
    (∀ s ∈ ([⟨1, 0, 2⟩, ⟨2, 2, 4⟩, ⟨3, 4, 5⟩, ⟨1, 5, 8⟩, ⟨2, 8, 9⟩] :
        List Slice),
      ∀ p ∈ ([⟨1, 0, 5, 1⟩, ⟨2, 1, 3, 1⟩, ⟨3, 2, 1, 1⟩] : List Proc),
        p.pid = s.pid → p.arrival ≤ s.start) :=
  ⟨by decide,
   claim_C8 (.mlfqP 3 2) [⟨1, 0, 5, 1⟩, ⟨2, 1, 3, 1⟩, ⟨3, 2, 1, 1⟩] 100 _
     (by decide) (by decide) (by decide)⟩

/-! ## C3: the policies perform no validation -/

theorem fcfs_map_pid (ps : List Proc) :
    (fcfs ps).map Slice.pid = (sortByArrival ps).map Proc.pid := by
  have h := congrArg (List.map Prod.fst) (fcfsGo_pidDur (sortByArrival ps) 0)
  simpa [fcfs, pidDur, pidBurst, List.map_map, Function.comp] using h

/-- The ordering C4 asserts, written from the claim's words rather than
the source: ascending `(arrival, pid)`, ties broken by pid. -/
def sortByArrivalPid (ps : List Proc) : List Proc :=
  ps.insertionSort (fun a b =>
    a.arrival < b.arrival ∨ (a.arrival = b.arrival ∧ a.pid ≤ b.pid))

/-- C4 (corrected): `fcfs` emits slices in the order of Python's stable
sort by `arrival` alone — processes with equal arrival keep their input
order, and pid never breaks ties.  In particular, when all arrivals are
equal the emission order is exactly the input order. -/
theorem claim_C4 (ps : List Proc) :
    (fcfs ps).map Slice.pid = (sortByArrival ps).map Proc.pid ∧
    ((∀ p ∈ ps, ∀ q ∈ ps, p.arrival = q.arrival) →
      (fcfs ps).map Slice.pid = ps.map Proc.pid) := by
  refine ⟨fcfs_map_pid ps, fun hall => ?_⟩
  have hs : List.Sorted (fun a b : Proc => a.arrival ≤ b.arrival) ps :=
    List.pairwise_of_forall_mem_list (fun a ha b hb => le_of_eq (hall a ha b hb))
  rw [fcfs_map_pid ps, sortByArrival, hs.insertionSort_eq]

/-- Witness for C4 at a concrete input with all arrivals equal. -/
theorem claim_C4_witness :
    (∀ p ∈ ([⟨2, 0, 1, 1⟩, ⟨1, 0, 1, 1⟩] : List Proc),
      ∀ q ∈ ([⟨2, 0, 1, 1⟩, ⟨1, 0, 1, 1⟩] : List Proc),
        p.arrival = q.arrival) ∧
    (fcfs [⟨2, 0, 1, 1⟩, ⟨1, 0, 1, 1⟩]).map Slice.pid
      = ([⟨2, 0, 1, 1⟩, ⟨1, 0, 1, 1⟩] : List Proc).map Proc.pid :=
  ⟨by decide, (claim_C4 [⟨2, 0, 1, 1⟩, ⟨1, 0, 1, 1⟩]).2 (by decide)⟩

/-- C4 counterexample: two processes with equal arrival listed in
descending pid order.  `fcfs` keeps the input order `[2, 1]`, while the
claimed `(arrival, pid)` ordering would schedule pid 1 first. -/
theorem claim_C4_counterexample :
    (fcfs [⟨2, 0, 1, 1⟩, ⟨1, 0, 1, 1⟩]).map Slice.pid = [2, 1] ∧
    (sortByArrivalPid [⟨2, 0, 1, 1⟩, ⟨1, 0, 1, 1⟩]).map Proc.pid = [1, 2] ∧
    (fcfs [⟨2, 0, 1, 1⟩, ⟨1, 0, 1, 1⟩]).map Slice.pid
      ≠ (sortByArrivalPid [⟨2, 0, 1, 1⟩, ⟨1, 0, 1, 1⟩]).map Proc.pid := by
  refine ⟨?_, ?_, ?_⟩ <;> decide

/-! ## C5: round robin admits arrivals before re-enqueuing -/

/-- C5: when a quantum expires with work remaining, one loop step of
`round_robin` re-enqueues the dispatched process at the very back — the
next queue is `rest of old queue ++ newly admitted ++ [preempted]` — and
every admitted process arrived by the new clock value
`time + min(quantum, remaining)`. -/
theorem claim_C5 (quantum : Int) (p : Proc) (qrest procs : List Proc)
    (rem : Int → Int) (time : Int) (acc : List Slice) (fuel : ℕ)
    (hleft : 0 < rem p.pid - min quantum (rem p.pid)) :
    (rrGo quantum (fuel + 1) procs (p :: qrest) rem time acc
      = rrGo quantum fuel
          (procs.dropWhile
            (fun x => decide (x.arrival ≤ time + min quantum (rem p.pid))))
          (qrest ++ procs.takeWhile
            (fun x => decide (x.arrival ≤ time + min quantum (rem p.pid)))
            ++ [p])
          (updateMap rem p.pid (rem p.pid - min quantum (rem p.pid)))
          (time + min quantum (rem p.pid))
          (acc ++ [⟨p.pid, time, time + min quantum (rem p.pid)⟩])) ∧
    ∀ x ∈ procs.takeWhile
        (fun x => decide (x.arrival ≤ time + min quantum (rem p.pid))),
      x.arrival ≤ time + min quantum (rem p.pid) := by
  constructor
  · have h1 : rrGo quantum (fuel + 1) procs (p :: qrest) rem time acc
        = rrGo quantum fuel
            (rrDispatch quantum p qrest procs rem time acc).1
            (rrDispatch quantum p qrest procs rem time acc).2.1
            (rrDispatch quantum p qrest procs rem time acc).2.2.1
            (rrDispatch quantum p qrest procs rem time acc).2.2.2.1
            (rrDispatch quantum p qrest procs rem time acc).2.2.2.2 := rfl
    rw [h1, rrDispatch_eq, if_pos hleft]
  · intro x hx
    have h8 := List.mem_takeWhile_imp hx
    exact of_decide_eq_true h8

/-- Witness for C5: quantum 2 expires on pid 1 (5 units of work) while
pid 3 arrives during the slice; pid 3 enters the queue ahead of the
re-enqueued pid 1. -/
theorem claim_C5_witness :
    (rrGo 2 51 [⟨3, 2, 1, 1⟩] [⟨1, 0, 5, 1⟩, ⟨2, 1, 3, 1⟩]
        (initRem [⟨1, 0, 5, 1⟩, ⟨2, 1, 3, 1⟩, ⟨3, 2, 1, 1⟩]) 0 []
      = rrGo 2 50 []
          ([⟨2, 1, 3, 1⟩] ++ [⟨3, 2, 1, 1⟩] ++ [⟨1, 0, 5, 1⟩])
          (updateMap (initRem [⟨1, 0, 5, 1⟩, ⟨2, 1, 3, 1⟩, ⟨3, 2, 1, 1⟩]) 1 3)
          2 ([] ++ [⟨1, 0, 2⟩])) ∧
    ∀ x ∈ [(⟨3, 2, 1, 1⟩ : Proc)].takeWhile
        (fun x : Proc => decide (x.arrival ≤ 2)),
      x.arrival ≤ 2 :=
  claim_C5 2 ⟨1, 0, 5, 1⟩ [⟨2, 1, 3, 1⟩] [⟨3, 2, 1, 1⟩]
    (initRem [⟨1, 0, 5, 1⟩, ⟨2, 1, 3, 1⟩, ⟨3, 2, 1, 1⟩]) 0 [] 50 (by decide)

/-! ## C6: the aging decision step -/

theorem setWaiting_eq : ∀ (l : List Proc) (t : Int) (ws : Int → Option Int)
    (y : Int), setWaiting l t ws y
      = if y ∈ l.map Proc.pid then some t else ws y
  | [], _, _, _ => by simp [setWaiting]
  | a :: rest, t, ws, y => by
    have h1 : setWaiting (a :: rest) t ws
        = setWaiting rest t (fun z => if z = a.pid then some t else ws z) := rfl
    rw [h1, setWaiting_eq rest]
    simp only [List.map_cons, List.mem_cons]
    by_cases hy : y ∈ rest.map Proc.pid
    · simp [hy]
    · by_cases hya : y = a.pid
      · simp [hy, hya]
      · simp [hy, hya]

theorem setWaiting_mem {l : List Proc} {t : Int} {ws : Int → Option Int}
    {x : Proc} (hx : x ∈ l) : setWaiting l t ws x.pid = some t := by
  rw [setWaiting_eq, if_pos (List.mem_map_of_mem Proc.pid hx)]

/-- C6: at a dispatch decision of `priority_scheduling_with_aging`:
(a) each process's effective priority is
`max(1, priority - ((now - waiting_since.get(pid, now)) // aging_interval)
* aging_delta)`; (b) the dispatched process minimises
`(effective_priority, arrival, pid)` over the ready set; (c) one loop
step emits exactly its slice and recurses on the rest; (d) afterwards
`waiting_since` is reset to the finish clock for every still-waiting
process. -/
theorem claim_C6 (ai ad : Int) (fuel : ℕ) (procs ready : List Proc)
    (ws ws1 : Int → Option Int) (time : Int) (acc : List Slice)
    (r0 : Proc) (rrest : List Proc)
    (key : Proc → Lex (Int × Lex (Int × Int)))
    (sel : Proc × List Proc) (s fin : Int)
    (hemp : (procs.isEmpty && ready.isEmpty) = false)
    (hready : ready ++ procs.takeWhile (fun x => decide (x.arrival ≤ time))
      = r0 :: rrest)
    (hws1 : ws1 = setWaiting
      (procs.takeWhile (fun x => decide (x.arrival ≤ time))) time ws)
    (hkey : key = fun x => toLex (effective_priority ai ad ws1 x time,
      toLex (x.arrival, x.pid)))
    (hsel : sel = selectMinBy key r0 rrest)
    (hs : s = max time sel.1.arrival) (hfin : fin = s + sel.1.burst) :
    (∀ q : Proc, effective_priority ai ad ws1 q time
      = max 1 (q.priority -
          (Int.fdiv (time - (match ws1 q.pid with
            | some t => t | none => time)) ai) * ad)) ∧
    (∀ x ∈ r0 :: rrest, key sel.1 ≤ key x) ∧
    (agingGo ai ad (fuel + 1) procs ready ws time acc
      = agingGo ai ad fuel
          (procs.dropWhile (fun x => decide (x.arrival ≤ time)))
          sel.2 (setWaiting sel.2 fin ws1) fin
          (acc ++ [⟨sel.1.pid, s, fin⟩])) ∧
    (∀ x ∈ sel.2, setWaiting sel.2 fin ws1 x.pid = some fin) := by
  subst hws1 hkey hsel hs hfin
  refine ⟨fun q => rfl,
    fun x hx => selectMinBy_min
      (fun x => toLex (effective_priority ai ad
        (setWaiting (procs.takeWhile (fun x => decide (x.arrival ≤ time)))
          time ws) x time, toLex (x.arrival, x.pid))) rrest r0 x hx,
    ?_, fun x hx => setWaiting_mem hx⟩
  rw [agingGo, if_neg (by rw [hemp]; exact Bool.false_ne_true)]
  simp only []
  rw [hready]

/-- A concrete `waiting_since` map: pid 1 has waited since 0, pid 2
since 6. -/
def wsC6 : Int → Option Int :=
  fun z => if z = 1 then some 0 else if z = 2 then some 6 else none

/-- Witness for C6: at clock 10 with `aging_interval = 2`,
`aging_delta = 1`, pid 1 (priority 5, waiting since 0) ages to effective
priority 1 and beats pid 2 (priority 5, waiting since 6, effective 3). -/
theorem claim_C6_witness :
    (∀ q : Proc, effective_priority 2 1 wsC6 q 10
      = max 1 (q.priority -
          (Int.fdiv (10 - (match wsC6 q.pid with
            | some t => t | none => 10)) 2) * 1)) ∧
    (∀ x ∈ ([⟨1, 0, 5, 5⟩, ⟨2, 0, 3, 5⟩] : List Proc),
      toLex (effective_priority 2 1 wsC6 ⟨1, 0, 5, 5⟩ 10,
          toLex ((0 : Int), (1 : Int)))
        ≤ toLex (effective_priority 2 1 wsC6 x 10,
            toLex (x.arrival, x.pid))) ∧
    (agingGo 2 1 6 [] [⟨1, 0, 5, 5⟩, ⟨2, 0, 3, 5⟩] wsC6 10 []
      = agingGo 2 1 5 [] [⟨2, 0, 3, 5⟩]
          (setWaiting [⟨2, 0, 3, 5⟩] 15 wsC6) 15 [⟨1, 10, 15⟩]) ∧
    (∀ x ∈ ([⟨2, 0, 3, 5⟩] : List Proc),
      setWaiting [⟨2, 0, 3, 5⟩] 15 wsC6 x.pid = some 15) :=
  claim_C6 2 1 5 [] [⟨1, 0, 5, 5⟩, ⟨2, 0, 3, 5⟩] wsC6 wsC6 10 []
    ⟨1, 0, 5, 5⟩ [⟨2, 0, 3, 5⟩]
    (fun x => toLex (effective_priority 2 1 wsC6 x 10,
      toLex (x.arrival, x.pid)))
    (⟨1, 0, 5, 5⟩, [⟨2, 0, 3, 5⟩]) 10 15
    rfl rfl rfl rfl (by decide) (by decide) (by decide)

/-! ## C7: the CFS weight and vruntime update -/

/-- C7: at a dispatch of `cfs` (work remaining afterwards): (a) the
dispatched entry minimises `(vruntime, pid)` over the ready set; (b) one
loop step runs `exec = min(time_slice, remaining)` and re-inserts the
process with `vruntime + exec / weight` where `weight = max(1,
priority)`; (c) a larger numeric priority yields a larger weight and
strictly slower vruntime growth. -/
theorem claim_C7 (ts : Int) (nKeys fuel : ℕ) (st : CfsState)
    (r0 : Proc × ℚ) (rrest : List (Proc × ℚ))
    (sel : (Proc × ℚ) × List (Proc × ℚ)) (e : Int) (w vr1 : ℚ)
    (hguard : st.fin.length < nKeys)
    (hready : st.ready
        ++ (st.procs.takeWhile (fun x => decide (x.arrival ≤ st.time))).map
          (fun p => (p, (0 : ℚ)))
      = r0 :: rrest)
    (hsel : sel = selectMinBy (fun x => toLex (x.2, x.1.pid)) r0 rrest)
    (he : e = min ts (st.rem sel.1.1.pid))
    (hw : w = max 1 ((sel.1.1.priority : ℚ)))
    (hvr : vr1 = sel.1.2 + (e : ℚ) / w)
    (hcont : ¬ st.rem sel.1.1.pid - e ≤ 0) :
    (∀ x ∈ r0 :: rrest, toLex (sel.1.2, sel.1.1.pid) ≤ toLex (x.2, x.1.pid)) ∧
    (cfsGo ts nKeys (fuel + 1) st
      = cfsGo ts nKeys fuel
          { procs := st.procs.dropWhile (fun x => decide (x.arrival ≤ st.time)),
            ready := sel.2 ++ [(sel.1.1, vr1)],
            rem := updateMap st.rem sel.1.1.pid (st.rem sel.1.1.pid - e),
            fin := st.fin, time := st.time + e,
            acc := st.acc ++ [⟨sel.1.1.pid, st.time, st.time + e⟩] }) ∧
    (∀ p1 p2 : Int, 1 ≤ p2 → p2 < p1 →
      max 1 ((p2 : ℚ)) < max 1 ((p1 : ℚ)) ∧
      ∀ x : ℚ, 0 < x →
        x / max 1 ((p1 : ℚ)) < x / max 1 ((p2 : ℚ))) := by
  subst hsel he hw hvr
  refine ⟨fun x hx => selectMinBy_min
    (fun x : Proc × ℚ => toLex (x.2, x.1.pid)) rrest r0 x hx, ?_, ?_⟩
  · rw [cfsGo, if_pos hguard]
    simp only []
    rw [hready]
    simp only []
    rw [if_neg hcont]
  · intro p1 p2 h2 hlt
    have h1 : (1 : Int) ≤ p1 := le_of_lt (lt_of_le_of_lt h2 hlt)
    have hw2 : max 1 ((p2 : ℚ)) = (p2 : ℚ) := max_eq_right (by exact_mod_cast h2)
    have hw1 : max 1 ((p1 : ℚ)) = (p1 : ℚ) := max_eq_right (by exact_mod_cast h1)
    have hlt' : (p2 : ℚ) < (p1 : ℚ) := by exact_mod_cast hlt
    have hp2 : (0 : ℚ) < (p2 : ℚ) := by
      have : (0 : Int) < p2 := lt_of_lt_of_le zero_lt_one h2
      exact_mod_cast this
    refine ⟨by rw [hw1, hw2]; exact hlt', fun x hx => ?_⟩
    rw [hw1, hw2]
    exact div_lt_div_of_pos_left hx hp2 hlt'

/-- Witness for C7: one ready process (pid 1, priority 3, 5 units left),
time slice 2: it runs 2 units and is re-inserted with vruntime
`0 + 2 / max(1, 3)`. -/
theorem claim_C7_witness :
    (∀ x ∈ [((⟨1, 0, 5, 3⟩ : Proc), (0 : ℚ))],
      toLex ((0 : ℚ), (1 : Int)) ≤ toLex (x.2, x.1.pid)) ∧
    (cfsGo 2 1 6 ⟨[], [(⟨1, 0, 5, 3⟩, 0)], fun _ => 5, [], 0, []⟩
      = cfsGo 2 1 5
          ⟨[], [(⟨1, 0, 5, 3⟩, 0 + (2 : ℚ) / max 1 (((3 : Int) : ℚ)))],
            updateMap (fun _ => 5) 1 3, [], 2, [⟨1, 0, 2⟩]⟩) ∧
    (∀ p1 p2 : Int, 1 ≤ p2 → p2 < p1 →
      max 1 ((p2 : ℚ)) < max 1 ((p1 : ℚ)) ∧
      ∀ x : ℚ, 0 < x →
        x / max 1 ((p1 : ℚ)) < x / max 1 ((p2 : ℚ))) :=
  claim_C7 2 1 5 ⟨[], [(⟨1, 0, 5, 3⟩, 0)], fun _ => 5, [], 0, []⟩
    (⟨1, 0, 5, 3⟩, 0) [] ((⟨1, 0, 5, 3⟩, 0), []) 2
    (max 1 (((3 : Int) : ℚ))) (0 + (2 : ℚ) / max 1 (((3 : Int) : ℚ)))
    (by decide) rfl rfl (by decide) rfl rfl (by decide)

/-! ## `aggregate_metrics` (src/utils.py lines 12–105) -/

/-- `sorted(timeline, key=lambda x: (x["start"], x["finish"]))`. -/
def sortTimeline (tl : List Slice) : List Slice :=
  tl.insertionSort (fun a b =>
    a.start < b.start ∨ (a.start = b.start ∧ a.finish ≤ b.finish))

/-- `max(s["finish"] for s in tl)`; 0 on the empty list (a case the
source never evaluates: it only takes the max of a non-empty group). -/
def maxFinish : List Slice → Int
  | [] => 0
  | s :: rest => (rest.map Slice.finish).foldl max s.finish

/-- `min(s["start"] for s in tl)`; 0 on the empty list. -/
def minStart : List Slice → Int
  | [] => 0
  | s :: rest => (rest.map Slice.start).foldl min s.start

/-- `makespan = max(s["finish"]) - min(s["start"])` over the timeline
(line 73). -/
def makespan (tl : List Slice) : Int := maxFinish tl - minStart tl

/-- `cpu_busy = sum(s["finish"] - s["start"] for s in timeline)`
(line 74). -/
def cpuBusy (tl : List Slice) : Int := (tl.map sliceDur).sum

/-- The value `aggregate_metrics` stores under `"CPU Utilization (%)"`:
0 on the `if not timeline or not processes` early return (lines 23–35),
otherwise `(cpu_busy / makespan * 100) if makespan > 0 else 0`
(line 75) — Python float division, embedded in ℚ. -/
def cpu_utilization (tl : List Slice) (ps : List Proc) : ℚ :=
  if tl = [] ∨ ps = [] then 0
  else if 0 < makespan tl then (cpuBusy tl : ℚ) / (makespan tl : ℚ) * 100
  else 0

/-- `info.get(pid, {}).get("arrival", 0)` where
`info = {int(p["pid"]): p for p in processes}` — later entries win, and
a missing pid reads as 0. -/
def infoArrival (ps : List Proc) (x : Int) : Int :=
  match ps.reverse.find? (fun p => decide (p.pid = x)) with
  | some p => p.arrival
  | none => 0

/-- `info.get(pid, {}).get("burst", 0)`. -/
def infoBurst (ps : List Proc) (x : Int) : Int :=
  match ps.reverse.find? (fun p => decide (p.pid = x)) with
  | some p => p.burst
  | none => 0

/-- The `by_pid` group of one pid: its slices, in sorted-timeline
order. -/
def slicesOf (tl : List Slice) (x : Int) : List Slice :=
  (sortTimeline tl).filter (fun s => decide (s.pid = x))

/-- One `per_proc` record (lines 58–68). -/
structure ProcMetrics where
  pid : Int
  arrival : Int
  burst : Int
  start : Int
  finish : Int
  response : Int
  waiting : Int
  turnaround : Int
  active : Int
deriving Repr, DecidableEq

/-- The `per_proc` record computed for pid `x` (lines 47–68):
`turnaround = last_finish - arrival`, `waiting = turnaround - burst`,
`response = first_start - arrival`, `active = Σ durations`. -/
def metricsFor (tl : List Slice) (ps : List Proc) (x : Int) : ProcMetrics :=
  { pid := x,
    arrival := infoArrival ps x,
    burst := infoBurst ps x,
    start := minStart (slicesOf tl x),
    finish := maxFinish (slicesOf tl x),
    response := minStart (slicesOf tl x) - infoArrival ps x,
    waiting := (maxFinish (slicesOf tl x) - infoArrival ps x) - infoBurst ps x,
    turnaround := maxFinish (slicesOf tl x) - infoArrival ps x,
    active := ((slicesOf tl x).map sliceDur).sum }

/-- The pids of the `by_pid` dict: distinct pids of the sorted
timeline. -/
def perProcPids (tl : List Slice) : List Int :=
  ((sortTimeline tl).map Slice.pid).dedup

/-- The `per_proc` list `aggregate_metrics` returns: empty on the
`if not timeline or not processes` early return (lines 23–24),
otherwise one record per distinct pid, sorted by pid (line 70). -/
def aggregate_per_proc (tl : List Slice) (ps : List Proc) :
    List ProcMetrics :=
  if tl = [] ∨ ps = [] then []
  else ((perProcPids tl).map (metricsFor tl ps)).insertionSort
    (fun a b => a.pid ≤ b.pid)

/-- C9 (corrected): with a non-empty timeline, a non-empty process list
(otherwise line 23's early return stores 0) and positive makespan,
`aggregate_metrics` stores the CPU utilisation as
`busy / makespan * 100` — a percentage, not the plain ratio
`busy / makespan` the claim states. -/
theorem claim_C9 (tl : List Slice) (ps : List Proc) (h0 : tl ≠ [])
    (hps : ps ≠ []) (h2 : 0 < makespan tl) :
    cpu_utilization tl ps = (cpuBusy tl : ℚ) / (makespan tl : ℚ) * 100 := by
  rw [cpu_utilization, if_neg (fun hc => hc.elim h0 hps), if_pos h2]

/-- Witness for C9 on the one-slice timeline `[⟨1, 0, 2⟩]` with its
process. -/
theorem claim_C9_witness :
    ([⟨1, 0, 2⟩] : List Slice) ≠ [] ∧
    ([⟨1, 0, 2, 1⟩] : List Proc) ≠ [] ∧
    0 < makespan [⟨1, 0, 2⟩] ∧
    cpu_utilization [⟨1, 0, 2⟩] [⟨1, 0, 2, 1⟩]
      = (cpuBusy [⟨1, 0, 2⟩] : ℚ) / (makespan [⟨1, 0, 2⟩] : ℚ) * 100 :=
  ⟨by decide, by decide, by decide,
   claim_C9 [⟨1, 0, 2⟩] [⟨1, 0, 2, 1⟩] (by decide) (by decide) (by decide)⟩

/-- C9 counterexample: for the timeline `[⟨1, 0, 2⟩]` and its process
the stored value is 100 (a percent) while the claimed ratio
`busy / makespan` is 1; and with an empty process list the early return
stores 0, not the ratio. -/
theorem claim_C9_counterexample :
    cpu_utilization [⟨1, 0, 2⟩] [⟨1, 0, 2, 1⟩] = 100 ∧
    (cpuBusy [⟨1, 0, 2⟩] : ℚ) / (makespan [⟨1, 0, 2⟩] : ℚ) = 1 ∧
    cpu_utilization [⟨1, 0, 2⟩] [⟨1, 0, 2, 1⟩]
      ≠ (cpuBusy [⟨1, 0, 2⟩] : ℚ) / (makespan [⟨1, 0, 2⟩] : ℚ) ∧
    cpu_utilization [⟨1, 0, 2⟩] [] = 0 := by
  refine ⟨?_, ?_, ?_, ?_⟩ <;>
    norm_num [cpu_utilization, cpuBusy, makespan, maxFinish, minStart,
      sliceDur]

/-- C10 (corrected): provided the process list is non-empty (with an
empty one, line 23's early return yields an empty `per_proc` list and no
record at all), a pid present in the timeline but absent from the
process list still gets a `per_proc` record — `aggregate_metrics` does
not fail — and that record has `arrival = 0`, `burst = 0`, `turnaround`
equal to its last finish time and `waiting` equal to that turnaround. -/
theorem claim_C10 (tl : List Slice) (ps : List Proc) (x : Int)
    (hps : ps ≠ [])
    (hin : x ∈ tl.map Slice.pid) (hout : x ∉ ps.map Proc.pid) :
    metricsFor tl ps x ∈ aggregate_per_proc tl ps ∧
    (metricsFor tl ps x).arrival = 0 ∧
    (metricsFor tl ps x).burst = 0 ∧
    (metricsFor tl ps x).turnaround = maxFinish (slicesOf tl x) ∧
    (metricsFor tl ps x).waiting = (metricsFor tl ps x).turnaround := by
  have hfind : ps.reverse.find? (fun p => decide (p.pid = x)) = none := by
    rw [List.find?_eq_none]
    intro p hp
    simp only [decide_eq_true_eq]
    intro hpx
    exact hout (hpx ▸ List.mem_map_of_mem Proc.pid (List.mem_reverse.1 hp))
  have harr : infoArrival ps x = 0 := by rw [infoArrival, hfind]
  have hbur : infoBurst ps x = 0 := by rw [infoBurst, hfind]
  have hmem : x ∈ perProcPids tl := by
    rw [perProcPids, List.mem_dedup]
    exact ((List.perm_insertionSort _ tl).map Slice.pid).mem_iff.2 hin
  have htl : tl ≠ [] := by
    intro h
    rw [h] at hin
    simp at hin
  refine ⟨?_, harr, hbur, ?_, ?_⟩
  · rw [aggregate_per_proc, if_neg (fun hc => hc.elim htl hps)]
    exact (List.perm_insertionSort _ _).mem_iff.2
      (List.mem_map_of_mem (metricsFor tl ps) hmem)
  · show maxFinish (slicesOf tl x) - infoArrival ps x = maxFinish (slicesOf tl x)
    rw [harr, sub_zero]
  · show (maxFinish (slicesOf tl x) - infoArrival ps x) - infoBurst ps x
      = maxFinish (slicesOf tl x) - infoArrival ps x
    rw [hbur, sub_zero]

/-- Witness for C10: pid 7 appears in the timeline but not in the
non-empty process list. -/
theorem claim_C10_witness :
    ([⟨1, 0, 5, 1⟩] : List Proc) ≠ [] ∧
    (7 : Int) ∈ ([⟨7, 0, 3⟩] : List Slice).map Slice.pid ∧
    (7 : Int) ∉ ([⟨1, 0, 5, 1⟩] : List Proc).map Proc.pid ∧
    (metricsFor [⟨7, 0, 3⟩] [⟨1, 0, 5, 1⟩] 7
        ∈ aggregate_per_proc [⟨7, 0, 3⟩] [⟨1, 0, 5, 1⟩] ∧
      (metricsFor [⟨7, 0, 3⟩] [⟨1, 0, 5, 1⟩] 7).arrival = 0 ∧
      (metricsFor [⟨7, 0, 3⟩] [⟨1, 0, 5, 1⟩] 7).burst = 0 ∧
      (metricsFor [⟨7, 0, 3⟩] [⟨1, 0, 5, 1⟩] 7).turnaround
        = maxFinish (slicesOf [⟨7, 0, 3⟩] 7) ∧
      (metricsFor [⟨7, 0, 3⟩] [⟨1, 0, 5, 1⟩] 7).waiting
        = (metricsFor [⟨7, 0, 3⟩] [⟨1, 0, 5, 1⟩] 7).turnaround) :=
  ⟨by decide, by decide, by decide,
   claim_C10 [⟨7, 0, 3⟩] [⟨1, 0, 5, 1⟩] 7 (by decide) (by decide) (by decide)⟩

/-- C10 counterexample: with an empty process list — where any timeline
pid is vacuously "absent from the process list" — `aggregate_metrics`
takes the line-23 early return and produces no record for pid 7 (the
`per_proc` list is empty), so the unconditional claim fails. -/
theorem claim_C10_counterexample :
    (7 : Int) ∈ ([⟨7, 0, 3⟩] : List Slice).map Slice.pid ∧
    (7 : Int) ∉ ([] : List Proc).map Proc.pid ∧
    aggregate_per_proc [⟨7, 0, 3⟩] [] = [] ∧
    metricsFor [⟨7, 0, 3⟩] [] 7 ∉ aggregate_per_proc [⟨7, 0, 3⟩] [] := by
  refine ⟨?_, ?_, ?_, ?_⟩ <;> decide

end Sched
